import Mathlib

set_option autoImplicit false

/-!
Verification of the request-scheduling core of this repository
(`scrapy/pqueues.py`, `scrapy/core/queues.py`) against its specification.

The Python data structures are shallowly embedded:

* Python `dict`s (insertion ordered, unique keys) become association lists
  (`alookup` / `aupdateF` / `aerase` / `dictSet` below give first-occurrence
  semantics, which coincides with `dict` semantics when keys are unique).
* `collections.deque` becomes `List` (head = left end).
* Exceptions become `Except`; an error value carries the message together with
  the state of the object at the moment the exception propagates (Python
  objects keep their current state when a method raises).

The operations of the external dependency `queuelib.PriorityQueue` (push /
pop / close / len) are not part of this repository's sources; they are
modelled from the specification and marked `Modelled from the spec:` in their
doc comments.  The same holds for library helpers (`urlparse`, `md5`, `uuid`,
`os.path.exists`) and for the downloader-aware queue, whose source file is
not part of the fragment.
-/

namespace Scrapy

/-! ### Association lists (Python dicts) -/

section AssocDefs

variable {α β : Type} [DecidableEq α]

/-- First-occurrence lookup in an association list (Python `d[k]` / `d.get(k)`). -/
def alookup : List (α × β) → α → Option β
  | [], _ => none
  | e :: es, k => if e.1 = k then some e.2 else alookup es k

/-- Update the value at the first occurrence of key `k` (Python updates the
stored value object in place, keeping the key's position). -/
def aupdateF : List (α × β) → α → (β → β) → List (α × β)
  | [], _, _ => []
  | e :: es, k, f => if e.1 = k then (e.1, f e.2) :: es else e :: aupdateF es k f

/-- Remove the first occurrence of key `k` (Python `del d[k]`). -/
def aerase : List (α × β) → α → List (α × β)
  | [], _ => []
  | e :: es, k => if e.1 = k then es else e :: aerase es k

/-- Python `d[k] = v`: overwrite in place if present, else append at the end
(insertion order). -/
def dictSet (l : List (α × β)) (k : α) (v : β) : List (α × β) :=
  if (alookup l k).isSome then aupdateF l k (fun _ => v) else l ++ [(k, v)]

end AssocDefs

/-! ### String ordering by code points (Python string comparison)

Core `String.lt` is iterator based and does not reduce in the kernel, so the
lexicographic order used by Python tuple comparison is defined directly on
the character lists. -/

def charsLtb : List Char → List Char → Bool
  | [], [] => false
  | [], _ :: _ => true
  | _ :: _, [] => false
  | c :: cs, d :: ds =>
    if c.toNat < d.toNat then true
    else if d.toNat < c.toNat then false
    else charsLtb cs ds

/-- Python string `<`: lexicographic comparison by code point. -/
def strLtb (s t : String) : Bool :=
  charsLtb s.data t.data

/-- The effective priority key of an entry: the Python tuple
`(priority, slot_path)`. -/
abbrev Prio := Int × String

/-- Python `<` on `(int, str)` tuples: lexicographic. -/
def prioLtb (p q : Prio) : Bool :=
  decide (p.1 < q.1) || (decide (p.1 = q.1) && strLtb p.2 q.2)

/-! ### Requests and the slot resolver (`scrapy/pqueues.py`) -/

/-- The request metadata mapping (`request.meta`, a Python dict). -/
abbrev ReqMeta := List (String × String)

/-- A value handed to `push` / `scheduler_slot`:
* `dict url meta` — a plain key-value mapping (`{"url": ..., "meta": ...}`);
  `meta = none` models a mapping with no `"meta"` key, in which case
  `_get_from_request(request, "meta", dict())` returns a fresh empty dict
  whose later mutation is invisible from the request;
* `request url meta` — a structured `Request` object, whose `meta` attribute
  always denotes a dict stored on the object;
* `invalid cls` — a value of any other class `cls`, accepted by neither
  `isinstance` check. -/
inductive Req where
  | dict (url : String) (meta : Option ReqMeta)
  | request (url : String) (meta : ReqMeta)
  | invalid (cls : String)
deriving DecidableEq

/-- The error text of `_get_from_request`. -/
def badTypeMsg (cls : String) : String :=
  "Bad type of request \"" ++ cls ++ "\""

/-- Modelled from the spec: the fixed metadata key under which the slot
override is stored (`Downloader.DOWNLOAD_SLOT`, an external collaborator
constant). -/
def SCHEDULER_SLOT_META_KEY : String := "download_slot"

/-- `_get_from_request(request, "meta", dict())`: the stored metadata mapping,
or a fresh empty dict for a plain mapping without a `"meta"` key. -/
def get_meta_from_request : Req → Except String ReqMeta
  | .dict _ m => .ok (m.getD [])
  | .request _ m => .ok m
  | .invalid cls => .error (badTypeMsg cls)

/-- `_get_from_request(request, "url")`. -/
def get_url_from_request : Req → Except String String
  | .dict url _ => .ok url
  | .request url _ => .ok url
  | .invalid cls => .error (badTypeMsg cls)

def hostEndChar (c : Char) : Bool :=
  c = '/' || c = ':' || c = '?' || c = '#'

def hostCharsAux : List Char → Option (List Char)
  | ':' :: '/' :: '/' :: rest => some (rest.takeWhile (fun c => !hostEndChar c))
  | _ :: cs => hostCharsAux cs
  | [] => none

/-- Modelled from the spec: the host component of the target identifier
(`urlparse(url).hostname` in the source, an external library call) — the
segment after `scheme://` up to the first delimiter; `none` when the URL has
no host. -/
def urlparse_hostname (url : String) : Option String :=
  match hostCharsAux url.data with
  | some [] => none
  | some cs => some ⟨cs⟩
  | none => none

/-- Python's in-place `meta[SCHEDULER_SLOT_META_KEY] = slot`: visible through
the request only when `meta` aliases a mapping stored on the request. For a
plain mapping without a `"meta"` key the default fresh dict was mutated, so
the request is unchanged. -/
def metaWriteBack (r : Req) (k v : String) : Req :=
  match r with
  | .dict url (some m) => .dict url (some (dictSet m k v))
  | .dict _ none => r
  | .request url m => .request url (dictSet m k v)
  | .invalid _ => r

/-- `scheduler_slot(request)`: returns the slot key together with the state
of the (possibly mutated) request. -/
def scheduler_slot (r : Req) : Except String (String × Req) := do
  let meta ← get_meta_from_request r
  match alookup meta SCHEDULER_SLOT_META_KEY with
  | some slot => return (slot, r)
  | none => do
    let url ← get_url_from_request r
    let slot := (urlparse_hostname url).getD ""
    return (slot, metaWriteBack r SCHEDULER_SLOT_META_KEY slot)

/-- The slot key `scheduler_slot` computes, when it does not raise. -/
def slotKeyOf (r : Req) : Option String :=
  match scheduler_slot r with
  | .ok p => some p.1
  | .error _ => none

/-- The request as stored by `push`: `scheduler_slot` may have written the
slot key back into its metadata. -/
def resolvedReq (r : Req) : Req :=
  match scheduler_slot r with
  | .ok p => p.2
  | .error _ => r

def pathable_char (c : Char) : Char :=
  if c.isAlphanum || c = '-' || c = '.' || c = '_' then c else '_'

/-- Modelled from the spec: the hex digest of a content hash of the raw key
(`hashlib.md5(...).hexdigest()` in the source, an external library call).
Modelled as the concatenated fixed-width hex encoding of the code points:
deterministic and collision-free, as the spec demands of the hash. -/
def hash_hexdigest (s : String) : String :=
  ⟨(s.data.map (fun c =>
      let ds := Nat.toDigits 16 c.toNat
      List.replicate (6 - ds.length) '0' ++ ds)).flatten⟩

/-- `_slot_as_path(slot)`: sanitized slot key joined with the digest of the
raw key. -/
def _slot_as_path (slot : String) : String :=
  (⟨slot.data.map pathable_char⟩ : String) ++ "-" ++ hash_hexdigest slot

/-! ### The Partition Queue: `PriorityAsTupleQueue`

The state is the `queues` dict of `queuelib.PriorityQueue`: priority tuple →
backing container.  Backing containers are modelled as in-memory FIFO lists
(one of the two configurable tie-break disciplines; no claim under
verification depends on the choice).  The library also keeps a `curprio`
cursor (the source constructor sets it to `min(startprios)`); it is internal
state of the modelled operations, none of which consult it here, so it is
not carried in the structure. -/

structure PriorityAsTupleQueue where
  queues : List (Prio × List Req)
deriving DecidableEq

/-- Modelled from the spec: `size()` — the number of outstanding entries
(`queuelib.PriorityQueue.__len__`, not under src/). -/
def PriorityAsTupleQueue.len (q : PriorityAsTupleQueue) : Nat :=
  (q.queues.map (fun e => e.2.length)).sum

/-- Modelled from the spec: `push(request, priority)` stores the entry in the
bucket of its priority level, creating the bucket through the factory when
absent; FIFO within a bucket (`queuelib.PriorityQueue.push`, not under
src/). -/
def PriorityAsTupleQueue.push (q : PriorityAsTupleQueue) (r : Req) (p : Prio) :
    PriorityAsTupleQueue :=
  if (alookup q.queues p).isSome then
    ⟨aupdateF q.queues p (fun b => b ++ [r])⟩
  else
    ⟨q.queues ++ [(p, [r])]⟩

def maxAcc (acc : Option Prio) (e : Prio × List Req) : Option Prio :=
  if e.2.isEmpty then acc
  else
    match acc with
    | none => some e.1
    | some m => if prioLtb m e.1 then some e.1 else some m

/-- The numerically highest priority among buckets that still hold entries:
the priority level `pop` serves next. -/
def PriorityAsTupleQueue.maxActive (q : PriorityAsTupleQueue) : Option Prio :=
  q.queues.foldl maxAcc none

/-- Modelled from the spec: `pop()` returns the entry with the numerically
highest priority currently stored (FIFO within the bucket) and discards the
bucket when it empties; `none` when nothing is stored
(`queuelib.PriorityQueue.pop`, not under src/). -/
def PriorityAsTupleQueue.popEntry (q : PriorityAsTupleQueue) :
    Option (Prio × Req) × PriorityAsTupleQueue :=
  match q.maxActive with
  | none => (none, q)
  | some p =>
    match alookup q.queues p with
    | some (r :: rest) =>
      (some (p, r),
        ⟨if rest.isEmpty then aerase q.queues p
          else aupdateF q.queues p (fun _ => rest)⟩)
    | _ => (none, q)

/-- `pop()` as the caller sees it: the request alone. -/
def PriorityAsTupleQueue.popReq (q : PriorityAsTupleQueue) :
    Option Req × PriorityAsTupleQueue :=
  (q.popEntry.1.map Prod.snd, q.popEntry.2)

/-- Modelled from the spec: `close()` returns the distinct priority levels
with outstanding entries, in insertion order
(`queuelib.PriorityQueue.close`, not under src/). -/
def PriorityAsTupleQueue.close (q : PriorityAsTupleQueue) : List Prio :=
  (q.queues.filter (fun e => !e.2.isEmpty)).map Prod.fst

/-- `PriorityAsTupleQueue.__init__(qfactory, startprios)`: one bucket per
priority tuple of the snapshot, each created through the factory (which, for
a durable backend, re-attaches the persisted entries). -/
def PriorityAsTupleQueue.ofStartprios (qfactory : Prio → List Req)
    (startprios : List Prio) : PriorityAsTupleQueue :=
  ⟨startprios.foldl (fun acc p => dictSet acc p (qfactory p)) []⟩

/-! ### The Round-Robin Fairness Queue: `RoundRobinQueue` -/

structure RoundRobinQueue where
  _slots : List String
  pqueues : List (String × PriorityAsTupleQueue)
deriving DecidableEq

def RoundRobinQueue.empty : RoundRobinQueue :=
  ⟨[], []⟩

/-- `__len__`: sum of the sizes of the Partition Queues, `0` with none
active. -/
def RoundRobinQueue.size (q : RoundRobinQueue) : Nat :=
  if q.pqueues.isEmpty then 0 else (q.pqueues.map (fun e => e.2.len)).sum

/-- `RoundRobinQueue.push(request, priority)`: resolve the slot (which may
raise on a bad request kind — the error carries the state of the queue at
that moment, still untouched); create Partition Queue and rotation-tail
entry for a new slot; push with the `(priority, slot_path)` tuple. -/
def RoundRobinQueue.push (q : RoundRobinQueue) (request : Req) (priority : Int) :
    Except (String × RoundRobinQueue) RoundRobinQueue :=
  match scheduler_slot request with
  | .error e => .error (e, q)
  | .ok (slot, req') =>
    let q1 : RoundRobinQueue :=
      if (alookup q.pqueues slot).isSome then q
      else ⟨q._slots ++ [slot], q.pqueues ++ [(slot, ⟨[]⟩)]⟩
    .ok ⟨q1._slots,
      aupdateF q1.pqueues slot
        (fun pq => pq.push req' (priority, _slot_as_path slot))⟩

/-- `RoundRobinQueue.pop()`, instrumented with the slot it served: `none`
when the rotation is empty; takes the rotation head, pops its Partition
Queue, re-appends the slot at the rotation tail while its queue is non-empty
and discards the queue otherwise.  A missing Partition Queue for the head
slot is Python's `KeyError` — the error value carries the state at the
raise, the head already removed. -/
def RoundRobinQueue.popWithSlot (q : RoundRobinQueue) :
    Except (String × RoundRobinQueue)
      (Option (String × Option Req) × RoundRobinQueue) :=
  match q._slots with
  | [] => .ok (none, q)
  | slot :: rest =>
    match alookup q.pqueues slot with
    | none => .error ("KeyError: " ++ slot, ⟨rest, q.pqueues⟩)
    | some pq =>
      let pr := pq.popReq
      if 0 < pr.2.len then
        .ok (some (slot, pr.1),
          ⟨rest ++ [slot], aupdateF q.pqueues slot (fun _ => pr.2)⟩)
      else
        .ok (some (slot, pr.1), ⟨rest, aerase q.pqueues slot⟩)

/-- `RoundRobinQueue.pop()` as the caller sees it. -/
def RoundRobinQueue.pop (q : RoundRobinQueue) :
    Except (String × RoundRobinQueue) (Option Req × RoundRobinQueue) :=
  match q.popWithSlot with
  | .error e => .error e
  | .ok (x, q') => .ok (x.bind Prod.snd, q')

/-- `close()`: the persisted snapshot — slot key to still-open priority
levels, in `pqueues` insertion order.  The source then clears `pqueues` and
`_slots`, so the queue state after `close()` is `RoundRobinQueue.empty`. -/
def RoundRobinQueue.closeSnap (q : RoundRobinQueue) : List (String × List Prio) :=
  q.pqueues.map (fun e => (e.1, e.2.close))

/-- The value read back from the persisted priorities state on reopen:
either a mapping slot key → list of priority tuples, or a legacy flat list
of integer priorities (the format an earlier version wrote). -/
inductive Snapshot where
  | asDict (entries : List (String × List Prio))
  | asList (items : List Int)
deriving DecidableEq

/-- Python truthiness: `if not startprios` is taken for an empty mapping and
for an empty list alike. -/
def Snapshot.isFalsy : Snapshot → Bool
  | .asDict [] => true
  | .asList [] => true
  | _ => false

def malformedMsg : String :=
  "Looks like your priorities file malforfemed. Possible reason: You run scrapy with previous version. Interrupted it. Updated scrapy. And run again."

/-- `RoundRobinQueue.__init__(qfactory, startprios)`: a falsy snapshot gives
the fresh empty queue; then a non-mapping snapshot raises `ValueError`
before any slot is processed; a mapping rebuilds rotation and Partition
Queues in its iteration order.  `entries` of a dict snapshot are its items
(unique keys, insertion order). -/
def RoundRobinQueue.ofSnapshot (qfactory : Prio → List Req) (s : Snapshot) :
    Except String RoundRobinQueue :=
  if s.isFalsy then .ok .empty
  else
    match s with
    | .asList _ => .error malformedMsg
    | .asDict entries =>
      .ok ⟨entries.map Prod.fst,
        entries.map (fun e => (e.1, PriorityAsTupleQueue.ofStartprios qfactory e.2))⟩

/-- At most `n` `pop()` calls, recording (slot, request), stopping at an
empty rotation, an empty pop or a raised error. -/
def RoundRobinQueue.drain : Nat → RoundRobinQueue → List (String × Req)
  | 0, _ => []
  | n + 1, q =>
    match q.popWithSlot with
    | .ok (some (s, some r), q') => (s, r) :: RoundRobinQueue.drain n q'
    | _ => []

/-- Popping until empty: the sequence of requests the queue hands out. -/
def RoundRobinQueue.drainedReqs (q : RoundRobinQueue) : List Req :=
  (RoundRobinQueue.drain q.size q).map Prod.snd

/-- A sequence of `push(request, priority)` calls (a raised push leaves the
state unchanged and the run continues). -/
def RoundRobinQueue.pushRun (q : RoundRobinQueue) (pairs : List (Req × Int)) :
    RoundRobinQueue :=
  pairs.foldl
    (fun acc pr =>
      match acc.push pr.1 pr.2 with
      | .ok q' => q'
      | .error e => e.2) q

/-- Every stored entry as (slot, request), in storage order. -/
def RoundRobinQueue.allPairs (q : RoundRobinQueue) : List (String × Req) :=
  q.pqueues.flatMap
    (fun e => e.2.queues.flatMap (fun b => b.2.map (fun r => (e.1, r))))

/-! ### Partition Queue well-formedness and the `popEntry` specification -/

/-- Invariant the Partition Queue operations maintain: bucket keys are
unique (they come from a dict) and no empty bucket is kept. -/
def PQWf (pq : PriorityAsTupleQueue) : Prop :=
  (pq.queues.map Prod.fst).Nodup ∧ ∀ b ∈ pq.queues, b.2 ≠ []

instance (pq : PriorityAsTupleQueue) : Decidable (PQWf pq) := by
  unfold PQWf; infer_instance

/-- The (priority, request) entries stored in a bucket list, in order. -/
def entriesL (l : List (Prio × List Req)) : List (Prio × Req) :=
  l.flatMap (fun b => b.2.map (fun r => (b.1, r)))

/-- Every stored (priority, request) entry, in storage order. -/
def PriorityAsTupleQueue.entries (pq : PriorityAsTupleQueue) : List (Prio × Req) :=
  entriesL pq.queues

/-! ### Draining a Partition Queue -/

/-- Repeated `popEntry`, at most `n` times. -/
def pqDrain : Nat → PriorityAsTupleQueue → List (Prio × Req)
  | 0, _ => []
  | n + 1, pq =>
    match pq.popEntry with
    | (some e, pq') => e :: pqDrain n pq'
    | (none, _) => []

/-! ### The Round-Robin Fairness Queue invariant -/

/-- The structural invariant of reachable round-robin queue states: the
rotation and the `pqueues` dict hold the same slots, each exactly once, and
every stored Partition Queue is well formed and non-empty. -/
def InvCore (q : RoundRobinQueue) : Prop :=
  (∀ s ∈ q._slots, (alookup q.pqueues s).isSome = true) ∧
  (∀ e ∈ q.pqueues, e.1 ∈ q._slots) ∧
  q._slots.Nodup ∧
  (q.pqueues.map Prod.fst).Nodup ∧
  (∀ e ∈ q.pqueues, PQWf e.2 ∧ e.2.queues ≠ [])

instance (q : RoundRobinQueue) : Decidable (InvCore q) := by
  unfold InvCore; infer_instance

/-- Every bucket key stored under a slot carries that slot's path as its
secondary component. -/
def InvPath (q : RoundRobinQueue) : Prop :=
  ∀ e ∈ q.pqueues, ∀ b ∈ e.2.queues, b.1.2 = _slot_as_path e.1

instance (q : RoundRobinQueue) : Decidable (InvPath q) := by
  unfold InvPath; infer_instance

/-- The (slot, request) entries of a `pqueues` dict fragment. -/
def slotPairsL (l : List (String × PriorityAsTupleQueue)) : List (String × Req) :=
  l.flatMap (fun e => e.2.queues.flatMap (fun b => b.2.map (fun r => (e.1, r))))

/-- Queue states reachable from the empty queue by `push` and `pop` calls; a
raising call leaves the queue in the state its error value carries. -/
inductive Reach : RoundRobinQueue → Prop
  | start : Reach .empty
  | pushOk {q : RoundRobinQueue} {r : Req} {p : Int} {q' : RoundRobinQueue} :
      Reach q → q.push r p = .ok q' → Reach q'
  | pushErr {q : RoundRobinQueue} {r : Req} {p : Int} {e : String × RoundRobinQueue} :
      Reach q → q.push r p = .error e → Reach e.2
  | popOk {q : RoundRobinQueue} {x : Option (String × Option Req)}
      {q' : RoundRobinQueue} :
      Reach q → q.popWithSlot = .ok (x, q') → Reach q'
  | popErr {q : RoundRobinQueue} {e : String × RoundRobinQueue} :
      Reach q → q.popWithSlot = .error e → Reach e.2

/-! ### Pushing into a single slot -/

/-- A queue holding one active slot with the given bucket list. -/
def singleSlotQueue (s : String) (B : List (Prio × List Req)) : RoundRobinQueue :=
  ⟨[s], [(s, ⟨B⟩)]⟩

/-- The bucket a push of `pr` into slot `s` creates. -/
def slotEntry (s : String) (pr : Req × Int) : Prio × List Req :=
  ((pr.2, _slot_as_path s), [resolvedReq pr.1])

/-- The pushed requests as stored (slot resolution may write metadata back),
with the priority passed to `push`. -/
def storedPairs (pairs : List (Req × Int)) : List (Req × Int) :=
  pairs.map (fun pr => (resolvedReq pr.1, pr.2))

/-! ### Persistence: close and reopen -/

/-- Modelled from the spec: the durable backing store as of `close()` time.
A reopen's factory re-attaches, for a priority level (whose second component
is the collision-free slot path), the persisted entries of the bucket stored
under that level — found here in the first slot holding the level. -/
def diskFind : List (String × PriorityAsTupleQueue) → Prio → List Req
  | [], _ => []
  | e :: es, p =>
    match alookup e.2.queues p with
    | some b => b
    | none => diskFind es p

def RoundRobinQueue.diskOf (q : RoundRobinQueue) (p : Prio) : List Req :=
  diskFind q.pqueues p

/-- `close()` followed by reconstruction from the returned snapshot, the
factory reading the durable store. -/
def RoundRobinQueue.reopenOf (q : RoundRobinQueue) : RoundRobinQueue :=
  match RoundRobinQueue.ofSnapshot q.diskOf (.asDict q.closeSnap) with
  | .ok q' => q'
  | .error _ => .empty

/-- Distinct active slots have distinct paths (the spec guarantees this
through the collision-free hash; here it is a hypothesis on the state). -/
def pathsDistinct (q : RoundRobinQueue) : Prop :=
  (q.pqueues.map (fun e => _slot_as_path e.1)).Nodup

instance (q : RoundRobinQueue) : Decidable (pathsDistinct q) := by
  unfold pathsDistinct; infer_instance

/-- One `pop()`, keeping only the queue state. -/
def popDrop (q : RoundRobinQueue) : RoundRobinQueue :=
  match q.popWithSlot with
  | .ok (_, q') => q'
  | .error e => e.2

/-! ### Slot resolution (write-back behaviour) -/

/-- The metadata mapping a request stores, when it stores one. -/
def storedMetaOf : Req → Option ReqMeta
  | .dict _ m => m
  | .request _ m => some m
  | .invalid _ => none

def urlOfD : Req → String
  | .dict url _ => url
  | .request url _ => url
  | .invalid _ => ""

/-- The slot override readable from the request afterwards. -/
def slotOverrideOf (r : Req) : Option String :=
  (storedMetaOf r).bind (fun m => alookup m SCHEDULER_SLOT_META_KEY)

instance {e a : Type} [DecidableEq e] [DecidableEq a] : DecidableEq (Except e a) :=
  fun x y =>
    match x, y with
    | .error e1, .error e2 => decidable_of_iff (e1 = e2) (by simp)
    | .error _, .ok _ => isFalse (by simp)
    | .ok _, .error _ => isFalse (by simp)
    | .ok v1, .ok v2 => decidable_of_iff (v1 = v2) (by simp)

/-! ### Counting pushes and pops -/

/-- A scheduler-level call against the queue. -/
inductive Op where
  | push (r : Req) (p : Int)
  | pop
  | close
deriving DecidableEq

/-- One call, tracking (state, pushes counted, pops that returned a request)
since the last `close()`; `close()` clears the queue and the counts alike. -/
def stepCounting (st : RoundRobinQueue × Nat × Nat) (op : Op) :
    RoundRobinQueue × Nat × Nat :=
  match op with
  | .push r p =>
    match st.1.push r p with
    | .ok q' => (q', st.2.1 + 1, st.2.2)
    | .error e => (e.2, st.2.1, st.2.2)
  | .pop =>
    match st.1.popWithSlot with
    | .ok (some (_, some _), q') => (q', st.2.1, st.2.2 + 1)
    | .ok (some (_, none), q') => (q', st.2.1, st.2.2)
    | .ok (none, q') => (q', st.2.1, st.2.2)
    | .error e => (e.2, st.2.1, st.2.2)
  | .close => (.empty, 0, 0)

def runOps (ops : List Op) : RoundRobinQueue × Nat × Nat :=
  ops.foldl stepCounting (.empty, 0, 0)

/-- The same calls with the counts kept across `close()` — the literal
"number of requests pushed so far" reading. -/
def stepCountingGlobal (st : RoundRobinQueue × Nat × Nat) (op : Op) :
    RoundRobinQueue × Nat × Nat :=
  match op with
  | .close => (.empty, st.2.1, st.2.2)
  | _ => stepCounting st op

def runOpsGlobal (ops : List Op) : RoundRobinQueue × Nat × Nat :=
  ops.foldl stepCountingGlobal (.empty, 0, 0)

/-! ### unique_files_queue (core/queues.py) -/

/-- `UniqueFilesQueue.__init__`: `path = path + "-" + uuid.uuid4().hex`
retried while `os.path.exists(path)`. The filesystem is modelled as the
list `fs` of paths that exist on disk, and `uuid.uuid4().hex` as the stream
`uuids` of strings, indexed by draw; the source's `while` loop gets
explicit fuel (each candidate is strictly longer than the one before, so
the candidates are pairwise distinct and at most `fs.length` probes can
collide — `unique_files_path` hands the loop enough fuel that it never
runs out). -/
def uniquePathAux (fs : List String) (uuids : Nat → String) :
    Nat → Nat → String → String
  | 0, _, path => path
  | fuel + 1, i, path =>
    if path ∈ fs then
      uniquePathAux fs uuids fuel (i + 1) (path ++ "-" ++ uuids i)
    else path

/-- The path the wrapper's constructor hands to `super().__init__`. -/
def unique_files_path (fs : List String) (uuids : Nat → String)
    (base : String) : String :=
  uniquePathAux fs uuids (fs.length + 1) 1 (base ++ "-" ++ uuids 0)

/-! ### DownloaderAwarePriorityQueue (spec §4.5; its class is referenced by
the tests but its code is not under src/) -/

/-- Modelled from the spec: the pop-selection rule of the downloader-aware
variant — the slot with the fewest in-flight requests among the active
slots, ties broken by rotation order with the earliest active slot
winning. `c` is the external concurrency signal; a slot no signal has been
received for reports zero. -/
def selectSlotAux (c : String → Nat) : List String → Option String
  | [] => none
  | s :: rest =>
    match selectSlotAux c rest with
    | none => some s
    | some t => if c t < c s then some t else some s

/-- Modelled from the spec: `pop()` of the downloader-aware variant — as in
the round-robin variant, except that the slot is chosen by the in-flight
minimum rule instead of always taking the rotation head; the chosen slot
leaves the rotation, and returns to its tail only while its Partition
Queue is non-empty. -/
def RoundRobinQueue.dapop (counts : String → Nat) (q : RoundRobinQueue) :
    Except (String × RoundRobinQueue)
      (Option (String × Option Req) × RoundRobinQueue) :=
  match selectSlotAux counts q._slots with
  | none => .ok (none, q)
  | some slot =>
    let rest := q._slots.erase slot
    match alookup q.pqueues slot with
    | none => .error ("KeyError: " ++ slot, ⟨rest, q.pqueues⟩)
    | some pq =>
      let pr := pq.popReq
      if 0 < pr.2.len then
        .ok (some (slot, pr.1),
          ⟨rest ++ [slot], aupdateF q.pqueues slot (fun _ => pr.2)⟩)
      else
        .ok (some (slot, pr.1), ⟨rest, aerase q.pqueues slot⟩)

/-- Modelled from the spec: push of the downloader-aware variant behaves
identically to the round-robin variant. -/
def RoundRobinQueue.dapush : RoundRobinQueue → Req → Int →
    Except (String × RoundRobinQueue) RoundRobinQueue :=
  RoundRobinQueue.push

/-- Modelled from the spec: close of the downloader-aware variant behaves
identically to the round-robin variant. -/
def RoundRobinQueue.daclose : RoundRobinQueue → List (String × List Prio) :=
  RoundRobinQueue.closeSnap

section AssocLemmas

variable {α β : Type} [DecidableEq α]

theorem alookup_none_iff {l : List (α × β)} {k : α} :
    alookup l k = none ↔ ∀ e ∈ l, e.1 ≠ k := by
  induction l with
  | nil => simp [alookup]
  | cons e es ih =>
    by_cases h : e.1 = k <;> simp [alookup, h, ih]

theorem alookup_isSome_iff {l : List (α × β)} {k : α} :
    (alookup l k).isSome = true ↔ ∃ e ∈ l, e.1 = k := by
  induction l with
  | nil => simp [alookup]
  | cons e es ih =>
    by_cases hk : e.1 = k
    · simp only [alookup, hk, if_true, Option.isSome_some, true_iff]
      exact ⟨e, by simp, hk⟩
    · simp only [alookup, hk, if_false, ih]
      constructor
      · rintro ⟨e', he', hk'⟩; exact ⟨e', by simp [he'], hk'⟩
      · rintro ⟨e', he', hk'⟩
        rcases List.mem_cons.mp he' with rfl | hmem
        · exact absurd hk' hk
        · exact ⟨e', hmem, hk'⟩

/-- A successful lookup splits the list at the first occurrence of the key. -/
theorem alookup_split {l : List (α × β)} {k : α} {v : β}
    (h : alookup l k = some v) :
    ∃ l1 l2, l = l1 ++ (k, v) :: l2 ∧ ∀ e ∈ l1, e.1 ≠ k := by
  induction l with
  | nil => simp [alookup] at h
  | cons e es ih =>
    by_cases hk : e.1 = k
    · refine ⟨[], es, ?_, by simp⟩
      simp [alookup, hk] at h
      simp [← hk, ← h]
    · simp [alookup, hk] at h
      obtain ⟨l1, l2, hsplit, hfresh⟩ := ih h
      exact ⟨e :: l1, l2, by simp [hsplit], by simpa [hk] using hfresh⟩

theorem alookup_append_left {l1 l2 : List (α × β)} {k : α}
    (h : ∀ e ∈ l1, e.1 ≠ k) :
    alookup (l1 ++ l2) k = alookup l2 k := by
  induction l1 with
  | nil => simp
  | cons e es ih =>
    have : e.1 ≠ k := h e (by simp)
    simp only [List.cons_append, alookup, this, if_false]
    exact ih (fun e' he' => h e' (by simp [he']))

theorem alookup_of_split {l1 l2 : List (α × β)} {k : α} {v : β}
    (h : ∀ e ∈ l1, e.1 ≠ k) :
    alookup (l1 ++ (k, v) :: l2) k = some v := by
  rw [alookup_append_left h]; simp [alookup]

theorem aupdateF_of_split {l1 l2 : List (α × β)} {k : α} {v : β} {f : β → β}
    (h : ∀ e ∈ l1, e.1 ≠ k) :
    aupdateF (l1 ++ (k, v) :: l2) k f = l1 ++ (k, f v) :: l2 := by
  induction l1 with
  | nil => simp [aupdateF]
  | cons e es ih =>
    have he : e.1 ≠ k := h e (by simp)
    simp only [List.cons_append, aupdateF, he, if_false, List.cons.injEq, true_and]
    exact ih (fun e' he' => h e' (by simp [he']))

theorem aerase_of_split {l1 l2 : List (α × β)} {k : α} {v : β}
    (h : ∀ e ∈ l1, e.1 ≠ k) :
    aerase (l1 ++ (k, v) :: l2) k = l1 ++ l2 := by
  induction l1 with
  | nil => simp [aerase]
  | cons e es ih =>
    have he : e.1 ≠ k := h e (by simp)
    simp only [List.cons_append, aerase, he, if_false, List.cons.injEq, true_and]
    exact ih (fun e' he' => h e' (by simp [he']))

theorem aupdateF_keys {l : List (α × β)} {k : α} {f : β → β} :
    (aupdateF l k f).map Prod.fst = l.map Prod.fst := by
  induction l with
  | nil => simp [aupdateF]
  | cons e es ih =>
    by_cases h : e.1 = k <;> simp [aupdateF, h, ih]

theorem alookup_aupdateF_ne {l : List (α × β)} {k k' : α} {f : β → β}
    (h : k ≠ k') :
    alookup (aupdateF l k f) k' = alookup l k' := by
  induction l with
  | nil => simp [aupdateF]
  | cons e es ih =>
    by_cases he : e.1 = k
    · have hne : e.1 ≠ k' := by rw [he]; exact h
      simp [aupdateF, he, alookup, hne, h]
    · have hke : ¬ k' = k := fun hc => h hc.symm
      by_cases he' : e.1 = k' <;> simp [aupdateF, he, alookup, he', ih, hke]

end AssocLemmas

theorem char_toNat_injective {c d : Char} (h : c.toNat = d.toNat) : c = d := by
  rw [← Char.ofNat_toNat c, ← Char.ofNat_toNat d, h]

theorem charsLtb_asymm {l m : List Char} (h : charsLtb l m = true) :
    charsLtb m l = false := by
  induction l generalizing m with
  | nil => cases m with
    | nil => simpa [charsLtb] using h
    | cons d ds => simp [charsLtb]
  | cons c cs ih =>
    cases m with
    | nil => simp [charsLtb] at h
    | cons d ds =>
      by_cases h1 : c.toNat < d.toNat
      · have h2 : ¬ d.toNat < c.toNat := by omega
        simp [charsLtb, h1, h2]
      · by_cases h2 : d.toNat < c.toNat
        · simp [charsLtb, h1, h2] at h
        · simp only [charsLtb, h1, h2, if_false] at h ⊢
          exact ih h

theorem charsLtb_eq_of_not_lt {l m : List Char}
    (h1 : charsLtb l m = false) (h2 : charsLtb m l = false) : l = m := by
  induction l generalizing m with
  | nil => cases m with
    | nil => rfl
    | cons d ds => simp [charsLtb] at h1
  | cons c cs ih =>
    cases m with
    | nil => simp [charsLtb] at h2
    | cons d ds =>
      by_cases hc : c.toNat < d.toNat
      · simp [charsLtb, hc] at h1
      · by_cases hd : d.toNat < c.toNat
        · simp [charsLtb, hd] at h2
        · have hcd : c = d := char_toNat_injective (by omega)
          subst hcd
          simp only [charsLtb, lt_self_iff_false, if_false] at h1 h2
          rw [ih h1 h2]

theorem prioLtb_asymm {p q : Prio} (h : prioLtb p q = true) :
    prioLtb q p = false := by
  rcases p with ⟨pi, ps⟩; rcases q with ⟨qi, qs⟩
  simp only [prioLtb, Bool.or_eq_true, Bool.and_eq_true, decide_eq_true_eq] at h ⊢
  rcases h with h | ⟨he, hs⟩
  · simp only [Bool.or_eq_false_iff, Bool.and_eq_false_iff]
    exact ⟨by simp; omega, Or.inl (by simp; omega)⟩
  · simp only [Bool.or_eq_false_iff, Bool.and_eq_false_iff]
    refine ⟨by simp; omega, Or.inr ?_⟩
    exact charsLtb_asymm hs

theorem prioLtb_eq_of_not_lt {p q : Prio}
    (h1 : prioLtb p q = false) (h2 : prioLtb q p = false) : p = q := by
  rcases p with ⟨pi, ps⟩; rcases q with ⟨qi, qs⟩
  simp only [prioLtb, Bool.or_eq_false_iff, Bool.and_eq_false_iff,
    decide_eq_false_iff_not, not_lt] at h1 h2
  obtain ⟨hle1, hrest1⟩ := h1
  obtain ⟨hle2, hrest2⟩ := h2
  have hii : pi = qi := le_antisymm hle2 hle1
  subst hii
  rcases hrest1 with hne | hs1
  · exact absurd rfl hne
  · rcases hrest2 with hne | hs2
    · exact absurd rfl hne
    · have hdata : ps.data = qs.data := charsLtb_eq_of_not_lt hs1 hs2
      have hps : ps = qs := by cases ps; cases qs; exact congrArg String.mk hdata
      rw [hps]

/-! ### Order lemmas for priority tuples -/

theorem charsLtb_irrefl (l : List Char) : charsLtb l l = false := by
  induction l with
  | nil => rfl
  | cons c cs ih => simp [charsLtb, ih]

theorem charsLtb_trans {a b c : List Char}
    (h1 : charsLtb a b = true) (h2 : charsLtb b c = true) :
    charsLtb a c = true := by
  induction a generalizing b c with
  | nil =>
    cases b with
    | nil => simp [charsLtb] at h1
    | cons y ys =>
      cases c with
      | nil => simp [charsLtb] at h2
      | cons z zs => simp [charsLtb]
  | cons x xs ih =>
    cases b with
    | nil => simp [charsLtb] at h1
    | cons y ys =>
      cases c with
      | nil => simp [charsLtb] at h2
      | cons z zs =>
        by_cases hxy : x.toNat < y.toNat
        · by_cases hyz : y.toNat < z.toNat
          · have hxz : x.toNat < z.toNat := by omega
            simp [charsLtb, hxz]
          · by_cases hzy : z.toNat < y.toNat
            · simp [charsLtb, hyz, hzy] at h2
            · have hy : y = z := char_toNat_injective (by omega)
              subst hy
              simp [charsLtb, hxy]
        · by_cases hyx : y.toNat < x.toNat
          · simp [charsLtb, hxy, hyx] at h1
          · have hx : x = y := char_toNat_injective (by omega)
            subst hx
            simp only [charsLtb, hxy, hyx, if_false] at h1
            by_cases hxz : x.toNat < z.toNat
            · simp [charsLtb, hxz]
            · by_cases hzx : z.toNat < x.toNat
              · simp [charsLtb, hxz, hzx] at h2
              · simp only [charsLtb, hxz, hzx, if_false] at h2 ⊢
                exact ih h1 h2

theorem prioLtb_trans {p q r : Prio}
    (h1 : prioLtb p q = true) (h2 : prioLtb q r = true) :
    prioLtb p r = true := by
  rcases p with ⟨pi, ps⟩; rcases q with ⟨qi, qs⟩; rcases r with ⟨ri, rs⟩
  simp only [prioLtb, Bool.or_eq_true, Bool.and_eq_true, decide_eq_true_eq] at h1 h2 ⊢
  rcases h1 with h1 | ⟨he1, hs1⟩
  · rcases h2 with h2 | ⟨he2, hs2⟩
    · exact Or.inl (by omega)
    · exact Or.inl (by omega)
  · rcases h2 with h2 | ⟨he2, hs2⟩
    · exact Or.inl (by omega)
    · exact Or.inr ⟨by omega, charsLtb_trans hs1 hs2⟩

/-! ### Lemmas on `maxActive` -/

theorem foldl_maxAcc_none {l : List (Prio × List Req)} {acc : Option Prio}
    (h : l.foldl maxAcc acc = none) :
    acc = none ∧ ∀ e ∈ l, e.2.isEmpty = true := by
  induction l generalizing acc with
  | nil => exact ⟨h, by simp⟩
  | cons e es ih =>
    simp only [List.foldl_cons] at h
    obtain ⟨hacc, hall⟩ := ih h
    by_cases he : e.2.isEmpty
    · refine ⟨by simpa [maxAcc, he] using hacc, ?_⟩
      intro e' he'
      rcases List.mem_cons.mp he' with rfl | hm
      · exact he
      · exact hall e' hm
    · exfalso
      rcases acc with _ | m
      · simp [maxAcc, he] at hacc
      · rcases hlt : prioLtb m e.1 <;> simp [maxAcc, he, hlt] at hacc

theorem foldl_maxAcc_some {l : List (Prio × List Req)} {acc : Option Prio} {k : Prio}
    (h : l.foldl maxAcc acc = some k) :
    acc = some k ∨ ∃ e ∈ l, e.2.isEmpty = false ∧ e.1 = k := by
  induction l generalizing acc with
  | nil => exact Or.inl h
  | cons e es ih =>
    simp only [List.foldl_cons] at h
    rcases ih h with hacc | ⟨e', he', hne, hk⟩
    · by_cases he : e.2.isEmpty
      · simp only [maxAcc, he, if_true] at hacc
        exact Or.inl hacc
      · rcases acc with _ | m
        · simp only [maxAcc, he, if_false] at hacc
          exact Or.inr ⟨e, by simp, by simpa using he, Option.some.inj hacc⟩
        · rcases hlt : prioLtb m e.1
          · simp only [maxAcc, he, if_false, hlt] at hacc
            exact Or.inl hacc
          · simp only [maxAcc, he, if_false, hlt, if_true] at hacc
            exact Or.inr ⟨e, by simp, by simpa using he, Option.some.inj hacc⟩
    · exact Or.inr ⟨e', by simp [he'], hne, hk⟩

theorem foldl_maxAcc_ge_acc {l : List (Prio × List Req)} {a k : Prio}
    (h : l.foldl maxAcc (some a) = some k) :
    a = k ∨ prioLtb a k = true := by
  induction l generalizing a with
  | nil => exact Or.inl (Option.some.inj h)
  | cons e es ih =>
    simp only [List.foldl_cons] at h
    by_cases he : e.2.isEmpty
    · rw [show maxAcc (some a) e = some a by simp [maxAcc, he]] at h
      exact ih h
    · rcases hlt : prioLtb a e.1
      · rw [show maxAcc (some a) e = some a by simp [maxAcc, he, hlt]] at h
        exact ih h
      · rw [show maxAcc (some a) e = some e.1 by simp [maxAcc, he, hlt]] at h
        rcases ih h with rfl | hlt2
        · exact Or.inr hlt
        · exact Or.inr (prioLtb_trans hlt hlt2)

theorem foldl_maxAcc_dominates {l : List (Prio × List Req)} {acc : Option Prio} {k : Prio}
    (h : l.foldl maxAcc acc = some k) :
    ∀ e ∈ l, e.2.isEmpty = false → e.1 = k ∨ prioLtb e.1 k = true := by
  induction l generalizing acc with
  | nil => simp
  | cons e es ih =>
    intro e' he' hne
    simp only [List.foldl_cons] at h
    rcases List.mem_cons.mp he' with rfl | hm
    · have step : ∃ m, maxAcc acc e' = some m ∧ (e'.1 = m ∨ prioLtb e'.1 m = true) := by
        rcases acc with _ | a
        · exact ⟨e'.1, by simp [maxAcc, hne], Or.inl rfl⟩
        · rcases hlt : prioLtb a e'.1
          · refine ⟨a, by simp [maxAcc, hne, hlt], ?_⟩
            rcases hlt2 : prioLtb e'.1 a
            · exact Or.inl (prioLtb_eq_of_not_lt hlt2 hlt)
            · exact Or.inr rfl
          · exact ⟨e'.1, by simp [maxAcc, hne, hlt], Or.inl rfl⟩
      obtain ⟨m, hstep, hrel⟩ := step
      rw [hstep] at h
      rcases foldl_maxAcc_ge_acc h with rfl | hmk
      · exact hrel
      · rcases hrel with rfl | hlt3
        · exact Or.inr hmk
        · exact Or.inr (prioLtb_trans hlt3 hmk)
    · exact ih h e' hm hne

theorem entriesL_append (a b : List (Prio × List Req)) :
    entriesL (a ++ b) = entriesL a ++ entriesL b := by
  simp [entriesL]

theorem entriesL_cons (e : Prio × List Req) (l : List (Prio × List Req)) :
    entriesL (e :: l) = e.2.map (fun r => (e.1, r)) ++ entriesL l := by
  simp [entriesL]

theorem alookup_mem {α β : Type} [DecidableEq α] {l : List (α × β)} {k : α} {v : β}
    (h : alookup l k = some v) : (k, v) ∈ l := by
  obtain ⟨l1, l2, rfl, -⟩ := alookup_split h
  simp

theorem mem_nodup_alookup {α β : Type} [DecidableEq α] {l : List (α × β)} {k : α} {v : β}
    (hmem : (k, v) ∈ l) (hnd : (l.map Prod.fst).Nodup) : alookup l k = some v := by
  induction l with
  | nil => simp at hmem
  | cons e es ih =>
    rcases List.mem_cons.mp hmem with rfl | hm
    · simp [alookup]
    · simp only [List.map_cons, List.nodup_cons] at hnd
      have hne : e.1 ≠ k := by
        intro hk
        exact hnd.1 (hk ▸ List.mem_map_of_mem Prod.fst hm)
      simp only [alookup, hne, if_false]
      exact ih hm hnd.2

theorem entries_key_mem {pq : PriorityAsTupleQueue} {e : Prio × Req}
    (h : e ∈ pq.entries) : e.1 ∈ pq.queues.map Prod.fst := by
  simp only [PriorityAsTupleQueue.entries, entriesL, List.mem_flatMap] at h
  obtain ⟨b, hb, he⟩ := h
  simp only [List.mem_map] at he
  obtain ⟨r, -, rfl⟩ := he
  exact List.mem_map_of_mem Prod.fst hb

theorem entries_length (pq : PriorityAsTupleQueue) :
    pq.entries.length = pq.len := by
  simp only [PriorityAsTupleQueue.entries, entriesL, PriorityAsTupleQueue.len]
  induction pq.queues with
  | nil => rfl
  | cons b bs ih => simp [ih]

theorem queues_nil_of_len_zero {pq : PriorityAsTupleQueue}
    (hwf : PQWf pq) (h : pq.len = 0) : pq.queues = [] := by
  rcases hq : pq.queues with _ | ⟨b, bs⟩
  · rfl
  · exfalso
    have hb : b.2 ≠ [] := hwf.2 b (by simp [hq])
    have hpos : 0 < b.2.length := List.length_pos.mpr hb
    simp only [PriorityAsTupleQueue.len, hq, List.map_cons, List.sum_cons] at h
    omega

theorem len_pos_of_ne_nil {pq : PriorityAsTupleQueue}
    (hwf : PQWf pq) (hne : pq.queues ≠ []) : 0 < pq.len := by
  rcases Nat.eq_zero_or_pos pq.len with h0 | hpos
  · exact absurd (queues_nil_of_len_zero hwf h0) hne
  · exact hpos

/-- Full behaviour of `popEntry` on a well-formed non-empty Partition Queue:
it serves the head of the bucket of the maximal stored priority, the result
is well formed with one entry fewer, the removed entry sits in the middle of
the stored entries, keys only disappear, the served priority dominates every
stored priority, and with singleton buckets its key is gone afterwards. -/
theorem popEntry_of_wf {pq : PriorityAsTupleQueue}
    (hwf : PQWf pq) (hne : pq.queues ≠ []) :
    ∃ k r pq', pq.popEntry = (some (k, r), pq') ∧ PQWf pq' ∧
      pq'.len + 1 = pq.len ∧
      (∃ A B, pq.entries = A ++ (k, r) :: B ∧ pq'.entries = A ++ B) ∧
      (∀ k' ∈ pq'.queues.map Prod.fst, k' ∈ pq.queues.map Prod.fst) ∧
      (∀ k' ∈ pq.queues.map Prod.fst, k' = k ∨ prioLtb k' k = true) ∧
      ((∀ b ∈ pq.queues, b.2.length = 1) →
        k ∉ pq'.queues.map Prod.fst ∧ ∀ b ∈ pq'.queues, b.2.length = 1) := by
  obtain ⟨b0, hb0⟩ := List.exists_mem_of_ne_nil pq.queues hne
  have hb0ne : b0.2.isEmpty = false := by
    simpa [List.isEmpty_iff] using hwf.2 b0 hb0
  rcases hmax : pq.maxActive with _ | k
  · exfalso
    obtain ⟨-, hall⟩ := foldl_maxAcc_none hmax
    rw [hall b0 hb0] at hb0ne
    exact Bool.noConfusion hb0ne
  · have hkmem : k ∈ pq.queues.map Prod.fst := by
      rcases foldl_maxAcc_some hmax with hc | ⟨e, he, -, rfl⟩
      · exact absurd hc (by simp)
      · exact List.mem_map_of_mem Prod.fst he
    have hsome : (alookup pq.queues k).isSome = true := by
      rw [alookup_isSome_iff]
      obtain ⟨kk, hkk, hfst⟩ := List.mem_map.mp hkmem
      exact ⟨kk, hkk, hfst⟩
    obtain ⟨v, hv⟩ := Option.isSome_iff_exists.mp hsome
    have hvne : v ≠ [] := hwf.2 _ (alookup_mem hv)
    rcases hvl : v with _ | ⟨r, rest⟩
    · exact absurd hvl hvne
    subst hvl
    obtain ⟨l1, l2, hsplit, hfresh⟩ := alookup_split hv
    have hdom : ∀ k' ∈ pq.queues.map Prod.fst, k' = k ∨ prioLtb k' k = true := by
      intro k' hk'
      obtain ⟨b, hb, rfl⟩ := List.mem_map.mp hk'
      exact foldl_maxAcc_dominates hmax b hb
        (by simpa [List.isEmpty_iff] using hwf.2 b hb)
    have hkeys : pq.queues.map Prod.fst = l1.map Prod.fst ++ k :: l2.map Prod.fst := by
      rw [hsplit]; simp
    have hmid : k ∉ l1.map Prod.fst ++ l2.map Prod.fst ∧
        (l1.map Prod.fst ++ l2.map Prod.fst).Nodup := by
      have h1 := hwf.1
      rw [hkeys, List.nodup_middle, List.nodup_cons] at h1
      exact h1
    by_cases hrest : rest.isEmpty
    · -- the bucket empties: it is erased
      have hrest0 : rest = [] := by simpa [List.isEmpty_iff] using hrest
      subst hrest0
      have herase : aerase pq.queues k = l1 ++ l2 := by
        rw [hsplit]; exact aerase_of_split hfresh
      refine ⟨k, r, ⟨aerase pq.queues k⟩, ?_, ?_, ?_, ?_, ?_, hdom, ?_⟩
      · simp [PriorityAsTupleQueue.popEntry, hmax, hv]
      · rw [herase]
        refine ⟨by simpa using hmid.2, ?_⟩
        intro b hb
        exact hwf.2 b (by rw [hsplit]; rcases List.mem_append.mp hb with h | h <;> simp [h])
      · rw [herase]
        simp only [PriorityAsTupleQueue.len, hsplit, List.map_append, List.map_cons,
          List.sum_append, List.sum_cons, List.length_cons, List.length_nil]
        omega
      · refine ⟨entriesL l1, entriesL l2, ?_, ?_⟩
        · rw [PriorityAsTupleQueue.entries, hsplit, entriesL_append, entriesL_cons]
          simp
        · rw [PriorityAsTupleQueue.entries, herase, entriesL_append]
      · intro k' hk'
        rw [herase] at hk'
        rw [hkeys]
        simp only [List.map_append] at hk'
        rcases List.mem_append.mp hk' with h | h
        · exact List.mem_append.mpr (Or.inl h)
        · exact List.mem_append.mpr (Or.inr (List.mem_cons_of_mem _ h))
      · intro hsing
        constructor
        · rw [herase]
          simpa using hmid.1
        · intro b hb
          rw [herase] at hb
          exact hsing b (by rw [hsplit]; rcases List.mem_append.mp hb with h | h <;> simp [h])
    · -- entries remain: the bucket is updated in place
      have hrne : rest ≠ [] := by simpa [List.isEmpty_iff] using hrest
      have hupd : aupdateF pq.queues k (fun _ => rest) = l1 ++ (k, rest) :: l2 := by
        rw [hsplit]; exact aupdateF_of_split hfresh
      refine ⟨k, r, ⟨aupdateF pq.queues k (fun _ => rest)⟩, ?_, ?_, ?_, ?_, ?_, hdom, ?_⟩
      · simp [PriorityAsTupleQueue.popEntry, hmax, hv, hrest]
      · rw [hupd]
        constructor
        · have : (l1 ++ (k, rest) :: l2).map Prod.fst =
              l1.map Prod.fst ++ k :: l2.map Prod.fst := by simp
          rw [this, ← hkeys]
          exact hwf.1
        · intro b hb
          rcases List.mem_append.mp hb with h | h
          · exact hwf.2 b (by rw [hsplit]; simp [h])
          · rcases List.mem_cons.mp h with rfl | h
            · exact hrne
            · exact hwf.2 b (by rw [hsplit]; simp [h])
      · rw [hupd]
        simp only [PriorityAsTupleQueue.len, hsplit, List.map_append, List.map_cons,
          List.sum_append, List.sum_cons, List.length_cons]
        omega
      · refine ⟨entriesL l1, rest.map (fun r' => (k, r')) ++ entriesL l2, ?_, ?_⟩
        · rw [PriorityAsTupleQueue.entries, hsplit, entriesL_append, entriesL_cons]
          simp
        · rw [PriorityAsTupleQueue.entries, hupd, entriesL_append, entriesL_cons]
      · intro k' hk'
        rw [hupd] at hk'
        have : (l1 ++ (k, rest) :: l2).map Prod.fst =
            l1.map Prod.fst ++ k :: l2.map Prod.fst := by simp
        rw [this, ← hkeys] at hk'
        exact hk'
      · intro hsing
        exfalso
        have : (r :: rest).length = 1 := hsing (k, r :: rest) (by rw [hsplit]; simp)
        have : rest = [] := by simpa using this
        exact hrne this

theorem len_pos_queues_ne_nil {pq : PriorityAsTupleQueue} (h : 0 < pq.len) :
    pq.queues ≠ [] := by
  intro hq
  simp [PriorityAsTupleQueue.len, hq] at h

/-- Draining a well-formed Partition Queue completely yields exactly its
stored entries, as a multiset. -/
theorem pqDrain_perm {n : Nat} {pq : PriorityAsTupleQueue}
    (hwf : PQWf pq) (hn : pq.len = n) :
    List.Perm (pqDrain n pq) pq.entries := by
  induction n generalizing pq with
  | zero =>
    have hq := queues_nil_of_len_zero hwf hn
    simp [pqDrain, PriorityAsTupleQueue.entries, hq, entriesL]
  | succ n ih =>
    have hne : pq.queues ≠ [] := len_pos_queues_ne_nil (by omega)
    obtain ⟨k, r, pq', hpop, hwf', hlen, ⟨A, B, hAB, hAB'⟩, hsub, hdom, hsing⟩ :=
      popEntry_of_wf hwf hne
    rw [show pqDrain (n + 1) pq = (k, r) :: pqDrain n pq' from by simp [pqDrain, hpop]]
    rw [hAB]
    have hperm : List.Perm (pqDrain n pq') (A ++ B) :=
      hAB' ▸ ih hwf' (by omega)
    exact (List.Perm.cons _ hperm).trans List.perm_middle.symm

/-- Draining a well-formed Partition Queue whose buckets are singletons
yields the entries in strictly decreasing priority order. -/
theorem pqDrain_sorted {n : Nat} {pq : PriorityAsTupleQueue}
    (hwf : PQWf pq) (hsing : ∀ b ∈ pq.queues, b.2.length = 1) (hn : pq.len = n) :
    (pqDrain n pq).Pairwise (fun a b => prioLtb b.1 a.1 = true) := by
  induction n generalizing pq with
  | zero => simp [pqDrain]
  | succ n ih =>
    have hne : pq.queues ≠ [] := len_pos_queues_ne_nil (by omega)
    obtain ⟨k, r, pq', hpop, hwf', hlen, -, hsub, hdom, hsingc⟩ :=
      popEntry_of_wf hwf hne
    obtain ⟨hknot, hsing'⟩ := hsingc hsing
    rw [show pqDrain (n + 1) pq = (k, r) :: pqDrain n pq' from by simp [pqDrain, hpop]]
    refine List.Pairwise.cons ?_ (ih hwf' hsing' (by omega))
    intro y hy
    have hmem : y ∈ pq'.entries :=
      (pqDrain_perm hwf' (by omega)).subset hy
    have hkey : y.1 ∈ pq'.queues.map Prod.fst := entries_key_mem hmem
    rcases hdom _ (hsub _ hkey) with heq | hlt
    · exact absurd (heq ▸ hkey) hknot
    · exact hlt

theorem prioLtb_same_snd {p q : Prio} (hs : p.2 = q.2) (h : prioLtb p q = true) :
    p.1 < q.1 := by
  simp only [prioLtb, Bool.or_eq_true, Bool.and_eq_true, decide_eq_true_eq] at h
  rcases h with h | ⟨-, hlt⟩
  · exact h
  · rw [hs] at hlt
    simp [strLtb, charsLtb_irrefl] at hlt

theorem size_eq_sum (q : RoundRobinQueue) :
    q.size = (q.pqueues.map (fun e => e.2.len)).sum := by
  rcases hq : q.pqueues with _ | ⟨e, es⟩ <;> simp [RoundRobinQueue.size, hq]

theorem alookup_aupdateF_self {α β : Type} [DecidableEq α]
    {l : List (α × β)} {k : α} {v : β} (f : β → β) (h : alookup l k = some v) :
    alookup (aupdateF l k f) k = some (f v) := by
  obtain ⟨l1, l2, rfl, hfresh⟩ := alookup_split h
  rw [aupdateF_of_split hfresh]
  exact alookup_of_split hfresh

theorem alookup_aerase_ne {α β : Type} [DecidableEq α]
    {l : List (α × β)} {k k' : α} (h : k ≠ k') :
    alookup (aerase l k) k' = alookup l k' := by
  induction l with
  | nil => simp [aerase]
  | cons e es ih =>
    by_cases he : e.1 = k
    · have hne : e.1 ≠ k' := by rw [he]; exact h
      simp [aerase, he, alookup, hne, h]
    · have hke : ¬ k' = k := fun hc => h hc.symm
      by_cases he' : e.1 = k' <;> simp [aerase, he, alookup, he', ih, hke]

theorem allPairs_eq_slotPairsL (q : RoundRobinQueue) :
    q.allPairs = slotPairsL q.pqueues := rfl

theorem slotPairsL_append (a b : List (String × PriorityAsTupleQueue)) :
    slotPairsL (a ++ b) = slotPairsL a ++ slotPairsL b := by
  simp [slotPairsL]

theorem slotPairsL_cons (e : String × PriorityAsTupleQueue)
    (l : List (String × PriorityAsTupleQueue)) :
    slotPairsL (e :: l) =
      (e.2.entries.map (fun en => (e.1, en.2))) ++ slotPairsL l := by
  simp only [slotPairsL, List.flatMap_cons, PriorityAsTupleQueue.entries, entriesL]
  congr 1
  induction e.2.queues with
  | nil => rfl
  | cons b bs ih => simp [ih]

/-- Full behaviour of `pop()` on an invariant-satisfying queue whose
rotation is non-empty: it serves the rotation head, yields a request, keeps
the invariants, shrinks the size by one, rotates or retires the head slot,
and removes exactly one stored entry. -/
theorem popWithSlot_ok {q : RoundRobinQueue} {s : String} {rest : List String}
    (hinv : InvCore q) (hslots : q._slots = s :: rest) :
    ∃ r q', q.popWithSlot = .ok (some (s, some r), q') ∧ InvCore q' ∧
      (InvPath q → InvPath q') ∧
      q'.size + 1 = q.size ∧
      (q'._slots = rest ++ [s] ∨ q'._slots = rest) ∧
      ∃ A B, q.allPairs = A ++ (s, r) :: B ∧ q'.allPairs = A ++ B := by
  have hsome : (alookup q.pqueues s).isSome = true :=
    hinv.1 s (by rw [hslots]; exact List.mem_cons_self s rest)
  obtain ⟨pq, hlk⟩ := Option.isSome_iff_exists.mp hsome
  have hpqmem : (s, pq) ∈ q.pqueues := alookup_mem hlk
  obtain ⟨hwfpq, hnepq⟩ := hinv.2.2.2.2 _ hpqmem
  obtain ⟨k, r, pq', hpop, hwf', hlen', ⟨A0, B0, hAB, hAB'⟩, hsub, hdom, -⟩ :=
    popEntry_of_wf hwfpq hnepq
  have hlen2 : pq'.len + 1 = pq.len := hlen'
  obtain ⟨P1, P2, hPsplit, hPfresh⟩ := alookup_split hlk
  have hkeys : q.pqueues.map Prod.fst = P1.map Prod.fst ++ s :: P2.map Prod.fst := by
    rw [hPsplit]; simp
  have hmid : s ∉ P1.map Prod.fst ++ P2.map Prod.fst ∧
      (P1.map Prod.fst ++ P2.map Prod.fst).Nodup := by
    have h1 := hinv.2.2.2.1
    rw [hkeys, List.nodup_middle, List.nodup_cons] at h1
    exact h1
  have hsnotrest : s ∉ rest := by
    have h2 := hinv.2.2.1; rw [hslots] at h2; exact (List.nodup_cons.mp h2).1
  have hrestnd : rest.Nodup := by
    have h2 := hinv.2.2.1; rw [hslots] at h2; exact (List.nodup_cons.mp h2).2
  have hpopreq : pq.popReq = (some r, pq') := by
    simp [PriorityAsTupleQueue.popReq, hpop]
  have hallq : q.allPairs = (slotPairsL P1 ++ A0.map (fun en => (s, en.2))) ++ (s, r) ::
      (B0.map (fun en => (s, en.2)) ++ slotPairsL P2) := by
    rw [allPairs_eq_slotPairsL, hPsplit, slotPairsL_append, slotPairsL_cons]
    simp only [hAB, List.map_append, List.map_cons]
    simp [List.append_assoc]
  have hmemold : ∀ e, e ∈ P1 ∨ e ∈ P2 → e ∈ q.pqueues := by
    intro e he
    rw [hPsplit]
    rcases he with h | h
    · exact List.mem_append.mpr (Or.inl h)
    · exact List.mem_append.mpr (Or.inr (List.mem_cons_of_mem _ h))
  by_cases hpos : 0 < pq'.len
  · -- the slot stays active: rotated to the tail, queue updated in place
    have hupd : aupdateF q.pqueues s (fun _ => pq') = P1 ++ (s, pq') :: P2 := by
      rw [hPsplit]; exact aupdateF_of_split hPfresh
    refine ⟨r, ⟨rest ++ [s], aupdateF q.pqueues s (fun _ => pq')⟩, ?_, ?_, ?_, ?_,
      Or.inl rfl, ?_⟩
    · simp [RoundRobinQueue.popWithSlot, hslots, hlk, hpopreq, hpos]
    · refine ⟨?_, ?_, ?_, ?_, ?_⟩
      · intro t ht
        rcases List.mem_append.mp ht with ht | ht
        · have hts : s ≠ t := fun hc => hsnotrest (hc ▸ ht)
          rw [show RoundRobinQueue.pqueues ⟨rest ++ [s], aupdateF q.pqueues s
            (fun _ => pq')⟩ = aupdateF q.pqueues s (fun _ => pq') from rfl,
            alookup_aupdateF_ne hts]
          exact hinv.1 t (by rw [hslots]; exact List.mem_cons_of_mem _ ht)
        · have hts : t = s := by simpa using ht
          subst hts
          rw [show RoundRobinQueue.pqueues ⟨rest ++ [t], aupdateF q.pqueues t
            (fun _ => pq')⟩ = aupdateF q.pqueues t (fun _ => pq') from rfl,
            alookup_aupdateF_self _ hlk]
          rfl
      · intro e he
        rw [show RoundRobinQueue.pqueues ⟨rest ++ [s], aupdateF q.pqueues s
          (fun _ => pq')⟩ = aupdateF q.pqueues s (fun _ => pq') from rfl, hupd] at he
        rcases List.mem_append.mp he with h | h
        · have hmem := hinv.2.1 e (hmemold e (Or.inl h))
          rw [hslots] at hmem
          rcases List.mem_cons.mp hmem with hc | hc
          · exact List.mem_append.mpr (Or.inr (by simp [hc]))
          · exact List.mem_append.mpr (Or.inl hc)
        · rcases List.mem_cons.mp h with rfl | h
          · exact List.mem_append.mpr (Or.inr (by simp))
          · have hmem := hinv.2.1 e (hmemold e (Or.inr h))
            rw [hslots] at hmem
            rcases List.mem_cons.mp hmem with hc | hc
            · exact List.mem_append.mpr (Or.inr (by simp [hc]))
            · exact List.mem_append.mpr (Or.inl hc)
      · have h2 := hinv.2.2.1
        rw [hslots] at h2
        exact List.nodup_append_comm.mpr (by simpa using h2)
      · have hkeq : (aupdateF q.pqueues s (fun _ => pq')).map Prod.fst =
            q.pqueues.map Prod.fst := aupdateF_keys
        rw [show RoundRobinQueue.pqueues ⟨rest ++ [s], aupdateF q.pqueues s
          (fun _ => pq')⟩ = aupdateF q.pqueues s (fun _ => pq') from rfl, hkeq]
        exact hinv.2.2.2.1
      · intro e he
        rw [show RoundRobinQueue.pqueues ⟨rest ++ [s], aupdateF q.pqueues s
          (fun _ => pq')⟩ = aupdateF q.pqueues s (fun _ => pq') from rfl, hupd] at he
        rcases List.mem_append.mp he with h | h
        · exact hinv.2.2.2.2 e (hmemold e (Or.inl h))
        · rcases List.mem_cons.mp h with rfl | h
          · exact ⟨hwf', len_pos_queues_ne_nil hpos⟩
          · exact hinv.2.2.2.2 e (hmemold e (Or.inr h))
    · intro hip e he b hb
      rw [show RoundRobinQueue.pqueues ⟨rest ++ [s], aupdateF q.pqueues s
        (fun _ => pq')⟩ = aupdateF q.pqueues s (fun _ => pq') from rfl, hupd] at he
      rcases List.mem_append.mp he with h | h
      · exact hip e (hmemold e (Or.inl h)) b hb
      · rcases List.mem_cons.mp h with rfl | h
        · have hkmem : b.1 ∈ pq.queues.map Prod.fst :=
            hsub _ (List.mem_map_of_mem Prod.fst hb)
          obtain ⟨b0, hb0, hb0eq⟩ := List.mem_map.mp hkmem
          have := hip (s, pq) hpqmem b0 hb0
          rw [hb0eq] at this
          exact this
        · exact hip e (hmemold e (Or.inr h)) b hb
    · rw [size_eq_sum, size_eq_sum,
        show RoundRobinQueue.pqueues ⟨rest ++ [s], aupdateF q.pqueues s
          (fun _ => pq')⟩ = aupdateF q.pqueues s (fun _ => pq') from rfl, hupd, hPsplit]
      simp [List.map_append, List.map_cons, List.sum_append, List.sum_cons]
      omega
    · refine ⟨slotPairsL P1 ++ A0.map (fun en => (s, en.2)),
        B0.map (fun en => (s, en.2)) ++ slotPairsL P2, hallq, ?_⟩
      rw [show RoundRobinQueue.allPairs ⟨rest ++ [s], aupdateF q.pqueues s
        (fun _ => pq')⟩ = slotPairsL (aupdateF q.pqueues s (fun _ => pq')) from rfl,
        hupd, slotPairsL_append, slotPairsL_cons]
      simp only [hAB', List.map_append]
      simp [List.append_assoc]
  · -- the slot's queue is exhausted: retired from rotation and dict
    have hlen0 : pq'.len = 0 := by omega
    have hA0B0 : A0 = [] ∧ B0 = [] := by
      have hl := entries_length pq'
      rw [hAB', hlen0, List.length_append] at hl
      constructor
      · exact List.length_eq_zero.mp (by omega)
      · exact List.length_eq_zero.mp (by omega)
    have herase : aerase q.pqueues s = P1 ++ P2 := by
      rw [hPsplit]; exact aerase_of_split hPfresh
    refine ⟨r, ⟨rest, aerase q.pqueues s⟩, ?_, ?_, ?_, ?_, Or.inr rfl, ?_⟩
    · simp [RoundRobinQueue.popWithSlot, hslots, hlk, hpopreq, hpos]
    · refine ⟨?_, ?_, ?_, ?_, ?_⟩
      · intro t ht
        have hts : s ≠ t := fun hc => hsnotrest (hc ▸ ht)
        rw [show RoundRobinQueue.pqueues ⟨rest, aerase q.pqueues s⟩ =
          aerase q.pqueues s from rfl, alookup_aerase_ne hts]
        exact hinv.1 t (by rw [hslots]; exact List.mem_cons_of_mem _ ht)
      · intro e he
        rw [show RoundRobinQueue.pqueues ⟨rest, aerase q.pqueues s⟩ =
          aerase q.pqueues s from rfl, herase] at he
        have hens : e.1 ≠ s := by
          intro hc
          apply hmid.1
          rcases List.mem_append.mp he with h | h
          · exact List.mem_append.mpr (Or.inl (hc ▸ List.mem_map_of_mem Prod.fst h))
          · exact List.mem_append.mpr (Or.inr (hc ▸ List.mem_map_of_mem Prod.fst h))
        have hmem := hinv.2.1 e (hmemold e (List.mem_append.mp he))
        rw [hslots] at hmem
        rcases List.mem_cons.mp hmem with hc | hc
        · exact absurd hc hens
        · exact hc
      · exact hrestnd
      · rw [show RoundRobinQueue.pqueues ⟨rest, aerase q.pqueues s⟩ =
          aerase q.pqueues s from rfl, herase]
        simpa using hmid.2
      · intro e he
        rw [show RoundRobinQueue.pqueues ⟨rest, aerase q.pqueues s⟩ =
          aerase q.pqueues s from rfl, herase] at he
        exact hinv.2.2.2.2 e (hmemold e (List.mem_append.mp he))
    · intro hip e he b hb
      rw [show RoundRobinQueue.pqueues ⟨rest, aerase q.pqueues s⟩ =
        aerase q.pqueues s from rfl, herase] at he
      exact hip e (hmemold e (List.mem_append.mp he)) b hb
    · rw [size_eq_sum, size_eq_sum,
        show RoundRobinQueue.pqueues ⟨rest, aerase q.pqueues s⟩ =
          aerase q.pqueues s from rfl, herase, hPsplit]
      simp [List.map_append, List.map_cons, List.sum_append, List.sum_cons]
      omega
    · refine ⟨slotPairsL P1 ++ A0.map (fun en => (s, en.2)),
        B0.map (fun en => (s, en.2)) ++ slotPairsL P2, hallq, ?_⟩
      rw [show RoundRobinQueue.allPairs ⟨rest, aerase q.pqueues s⟩ =
        slotPairsL (aerase q.pqueues s) from rfl, herase, slotPairsL_append]
      simp [hA0B0.1, hA0B0.2]

/-! ### Draining the round-robin queue -/

theorem slots_ne_nil_of_size_pos {q : RoundRobinQueue}
    (hinv : InvCore q) (h : 0 < q.size) : q._slots ≠ [] := by
  intro hs
  rcases hq : q.pqueues with _ | ⟨e, es⟩
  · rw [size_eq_sum, hq] at h
    simp at h
  · have hmem := hinv.2.1 e (by rw [hq]; exact List.mem_cons_self e es)
    rw [hs] at hmem
    simp at hmem

/-- Draining an invariant-satisfying queue completely yields exactly the
stored entries, as a multiset. -/
theorem drain_perm {n : Nat} {q : RoundRobinQueue}
    (hinv : InvCore q) (hn : q.size = n) :
    List.Perm (RoundRobinQueue.drain n q) q.allPairs := by
  induction n generalizing q with
  | zero =>
    have hq : q.pqueues = [] := by
      rcases hqq : q.pqueues with _ | ⟨e, es⟩
      · rfl
      · exfalso
        obtain ⟨hwf, hne2⟩ := hinv.2.2.2.2 e (by rw [hqq]; exact List.mem_cons_self e es)
        have hpos := len_pos_of_ne_nil hwf hne2
        rw [size_eq_sum, hqq] at hn
        simp only [List.map_cons, List.sum_cons] at hn
        omega
    simp [RoundRobinQueue.drain, allPairs_eq_slotPairsL, hq, slotPairsL]
  | succ n ih =>
    have hne : q._slots ≠ [] := slots_ne_nil_of_size_pos hinv (by omega)
    rcases hs : q._slots with _ | ⟨s, rest⟩
    · exact absurd hs hne
    obtain ⟨r, q', hpw, hinv', -, hsz, -, A, B, hA, hB⟩ := popWithSlot_ok hinv hs
    rw [show RoundRobinQueue.drain (n + 1) q = (s, r) :: RoundRobinQueue.drain n q' from
      by simp [RoundRobinQueue.drain, hpw]]
    rw [hA]
    have hperm : List.Perm (RoundRobinQueue.drain n q') (A ++ B) :=
      hB ▸ ih hinv' (by omega)
    exact (List.Perm.cons _ hperm).trans List.perm_middle.symm

/-- The first `n ≤ |rotation|` pops serve exactly the first `n` slots of the
rotation, in order. -/
theorem drain_slots_take {q : RoundRobinQueue} (hinv : InvCore q) :
    ∀ n, n ≤ q._slots.length →
      (RoundRobinQueue.drain n q).map Prod.fst = q._slots.take n := by
  intro n
  induction n generalizing q with
  | zero => simp [RoundRobinQueue.drain]
  | succ n ih =>
    intro hlen
    rcases hs : q._slots with _ | ⟨s, rest⟩
    · rw [hs] at hlen; simp at hlen
    obtain ⟨r, q', hpw, hinv', -, -, hslots', -⟩ := popWithSlot_ok hinv hs
    rw [show RoundRobinQueue.drain (n + 1) q = (s, r) :: RoundRobinQueue.drain n q' from
      by simp [RoundRobinQueue.drain, hpw]]
    have hrest : n ≤ rest.length := by
      rw [hs] at hlen; simpa using hlen
    have htake : (RoundRobinQueue.drain n q').map Prod.fst = rest.take n := by
      rcases hslots' with h | h
      · rw [ih hinv' (by rw [h]; simp; omega), h, List.take_append_of_le_length hrest]
      · rw [ih hinv' (by rw [h]; omega), h]
    simp [htake]

/-! ### Behaviour of `push` -/

theorem alookup_append {α β : Type} [DecidableEq α] (a b : List (α × β)) (k : α) :
    alookup (a ++ b) k =
      match alookup a k with
      | some v => some v
      | none => alookup b k := by
  induction a with
  | nil => simp [alookup]
  | cons e es ih =>
    by_cases he : e.1 = k <;> simp [alookup, he, ih]

theorem pq_push_len (pq : PriorityAsTupleQueue) (r : Req) (k : Prio) :
    (pq.push r k).len = pq.len + 1 := by
  unfold PriorityAsTupleQueue.push
  rcases hlk : alookup pq.queues k with _ | v
  · simp [PriorityAsTupleQueue.len]
  · obtain ⟨l1, l2, hsplit, hfresh⟩ := alookup_split hlk
    simp only [Option.isSome_some, if_true]
    rw [show (aupdateF pq.queues k fun bb => bb ++ [r]) = l1 ++ (k, v ++ [r]) :: l2 from
      by rw [hsplit]; exact aupdateF_of_split hfresh]
    rw [show pq.len = ((l1 ++ (k, v) :: l2).map (fun e => e.2.length)).sum from
      by rw [PriorityAsTupleQueue.len, hsplit]]
    simp only [PriorityAsTupleQueue.len, List.map_append, List.map_cons, List.sum_append,
      List.sum_cons, List.length_append, List.length_cons, List.length_nil]
    omega

theorem pq_push_ne_nil (pq : PriorityAsTupleQueue) (r : Req) (k : Prio) :
    (pq.push r k).queues ≠ [] := by
  unfold PriorityAsTupleQueue.push
  rcases hlk : alookup pq.queues k with _ | v
  · simp
  · obtain ⟨l1, l2, hsplit, hfresh⟩ := alookup_split hlk
    simp only [Option.isSome_some, if_true]
    rw [show (aupdateF pq.queues k fun bb => bb ++ [r]) = l1 ++ (k, v ++ [r]) :: l2 from
      by rw [hsplit]; exact aupdateF_of_split hfresh]
    simp

theorem pq_push_wf {pq : PriorityAsTupleQueue} (hwf : PQWf pq) (r : Req) (k : Prio) :
    PQWf (pq.push r k) := by
  unfold PriorityAsTupleQueue.push
  rcases hlk : alookup pq.queues k with _ | v
  · simp only [Option.isSome_none, Bool.false_eq_true, if_false]
    have hfresh : k ∉ pq.queues.map Prod.fst := by
      intro hc
      obtain ⟨e, he, hk⟩ := List.mem_map.mp hc
      exact (alookup_none_iff.mp hlk e he) hk
    constructor
    · rw [show ((pq.queues ++ [(k, [r])]).map Prod.fst) =
        pq.queues.map Prod.fst ++ k :: [] from by simp]
      rw [List.nodup_middle]
      simp [hwf.1, hfresh]
    · intro bb hbb
      rcases List.mem_append.mp hbb with h | h
      · exact hwf.2 bb h
      · rcases List.mem_cons.mp h with rfl | h
        · simp
        · simp at h
  · simp only [Option.isSome_some, if_true]
    obtain ⟨l1, l2, hsplit, hfresh⟩ := alookup_split hlk
    rw [show (aupdateF pq.queues k fun bb => bb ++ [r]) = l1 ++ (k, v ++ [r]) :: l2 from
      by rw [hsplit]; exact aupdateF_of_split hfresh]
    constructor
    · rw [show ((l1 ++ (k, v ++ [r]) :: l2).map Prod.fst) =
        pq.queues.map Prod.fst from by rw [hsplit]; simp]
      exact hwf.1
    · intro bb hbb
      rcases List.mem_append.mp hbb with h | h
      · exact hwf.2 bb (by rw [hsplit]; exact List.mem_append.mpr (Or.inl h))
      · rcases List.mem_cons.mp h with rfl | h
        · simp
        · exact hwf.2 bb (by rw [hsplit]; simp [h])

theorem pq_push_key_mem {pq : PriorityAsTupleQueue} {r : Req} {k : Prio}
    {b : Prio × List Req} (hb : b ∈ (pq.push r k).queues) :
    b.1 ∈ pq.queues.map Prod.fst ∨ b.1 = k := by
  unfold PriorityAsTupleQueue.push at hb
  rcases hlk : alookup pq.queues k with _ | v
  · rw [hlk] at hb
    simp only [Option.isSome_none, Bool.false_eq_true, if_false] at hb
    rcases List.mem_append.mp hb with h | h
    · exact Or.inl (List.mem_map_of_mem Prod.fst h)
    · rcases List.mem_cons.mp h with rfl | h
      · exact Or.inr rfl
      · simp at h
  · rw [hlk] at hb
    simp only [Option.isSome_some, if_true] at hb
    obtain ⟨l1, l2, hsplit, hfresh⟩ := alookup_split hlk
    rw [show (aupdateF pq.queues k fun bb => bb ++ [r]) = l1 ++ (k, v ++ [r]) :: l2 from
      by rw [hsplit]; exact aupdateF_of_split hfresh] at hb
    rcases List.mem_append.mp hb with h | h
    · refine Or.inl ?_
      rw [hsplit]
      exact List.mem_map_of_mem Prod.fst (List.mem_append.mpr (Or.inl h))
    · rcases List.mem_cons.mp h with rfl | h
      · exact Or.inr rfl
      · refine Or.inl ?_
        rw [hsplit]
        exact List.mem_map_of_mem Prod.fst (by simp [h])

/-- Full behaviour of a successful `push`: the queue gains exactly one
entry; a slot already present keeps the rotation unchanged while a new slot
is appended at the rotation tail; the invariants are preserved, as is the
alignment of rotation order with `pqueues` insertion order. -/
theorem push_ok {q : RoundRobinQueue} {r : Req} {p : Int} {s : String} {r2 : Req}
    (hres : scheduler_slot r = .ok (s, r2)) :
    ∃ q', q.push r p = .ok q' ∧
      q'.size = q.size + 1 ∧
      ((alookup q.pqueues s).isSome = true → q'._slots = q._slots) ∧
      (alookup q.pqueues s = none → q'._slots = q._slots ++ [s]) ∧
      (InvCore q → InvCore q') ∧
      (InvCore q → InvPath q → InvPath q') ∧
      (q._slots = q.pqueues.map Prod.fst → q'._slots = q'.pqueues.map Prod.fst) := by
  rcases hlk : alookup q.pqueues s with _ | pq
  · -- a new slot: Partition Queue created, slot appended to the rotation
    have hfresh : ∀ e ∈ q.pqueues, e.1 ≠ s := alookup_none_iff.mp hlk
    have hsnk : s ∉ q.pqueues.map Prod.fst := by
      intro hc
      obtain ⟨e, he, hk⟩ := List.mem_map.mp hc
      exact hfresh e he hk
    have hupd : aupdateF (q.pqueues ++ [(s, (⟨[]⟩ : PriorityAsTupleQueue))]) s
        (fun pq0 => pq0.push r2 (p, _slot_as_path s)) =
        q.pqueues ++ [(s, (⟨[]⟩ : PriorityAsTupleQueue).push r2 (p, _slot_as_path s))] :=
      aupdateF_of_split hfresh
    have hpqnew : (⟨[]⟩ : PriorityAsTupleQueue).push r2 (p, _slot_as_path s) =
        ⟨[((p, _slot_as_path s), [r2])]⟩ := rfl
    refine ⟨⟨q._slots ++ [s], q.pqueues ++ [(s, ⟨[((p, _slot_as_path s), [r2])]⟩)]⟩,
      ?_, ?_, ?_, fun _ => rfl, ?_, ?_, ?_⟩
    · simp [RoundRobinQueue.push, hres, hlk, hupd, hpqnew]
    · rw [size_eq_sum, size_eq_sum]
      simp [PriorityAsTupleQueue.len]
    · intro h
      exact absurd h (by simp)
    · intro hinv
      refine ⟨?_, ?_, ?_, ?_, ?_⟩
      · intro t ht
        rcases List.mem_append.mp ht with ht | ht
        · rw [show RoundRobinQueue.pqueues ⟨q._slots ++ [s], q.pqueues ++
            [(s, ⟨[((p, _slot_as_path s), [r2])]⟩)]⟩ = q.pqueues ++
            [(s, ⟨[((p, _slot_as_path s), [r2])]⟩)] from rfl, alookup_append]
          obtain ⟨v, hv⟩ := Option.isSome_iff_exists.mp (hinv.1 t ht)
          rw [hv]
          rfl
        · have hts : t = s := by simpa using ht
          subst hts
          rw [show RoundRobinQueue.pqueues ⟨q._slots ++ [t], q.pqueues ++
            [(t, ⟨[((p, _slot_as_path t), [r2])]⟩)]⟩ = q.pqueues ++
            [(t, ⟨[((p, _slot_as_path t), [r2])]⟩)] from rfl, alookup_append, hlk]
          simp [alookup]
      · intro e he
        rcases List.mem_append.mp he with h | h
        · exact List.mem_append.mpr (Or.inl (hinv.2.1 e h))
        · rcases List.mem_cons.mp h with rfl | h
          · exact List.mem_append.mpr (Or.inr (by simp))
          · simp at h
      · have hs : s ∉ q._slots := by
          intro hc
          have := hinv.1 s hc
          rw [hlk] at this
          simp at this
        exact List.nodup_append_comm.mpr (by simp [hinv.2.2.1, hs])
      · rw [show RoundRobinQueue.pqueues ⟨q._slots ++ [s], q.pqueues ++
          [(s, ⟨[((p, _slot_as_path s), [r2])]⟩)]⟩ = q.pqueues ++
          [(s, ⟨[((p, _slot_as_path s), [r2])]⟩)] from rfl]
        rw [show ((q.pqueues ++ [(s, (⟨[((p, _slot_as_path s), [r2])]⟩ :
          PriorityAsTupleQueue))]).map Prod.fst) = q.pqueues.map Prod.fst ++ s :: [] from
          by simp]
        rw [List.nodup_middle]
        simp [hinv.2.2.2.1, hsnk]
      · intro e he
        rcases List.mem_append.mp he with h | h
        · exact hinv.2.2.2.2 e h
        · rcases List.mem_cons.mp h with rfl | h
          · refine ⟨⟨by simp, by simp⟩, by simp⟩
          · simp at h
    · intro hinv hip e he b hb
      rcases List.mem_append.mp he with h | h
      · exact hip e h b hb
      · rcases List.mem_cons.mp h with rfl | h
        · have : b = ((p, _slot_as_path s), [r2]) := by simpa using hb
          rw [this]
        · simp at h
    · intro h
      rw [show RoundRobinQueue._slots ⟨q._slots ++ [s], q.pqueues ++
        [(s, ⟨[((p, _slot_as_path s), [r2])]⟩)]⟩ = q._slots ++ [s] from rfl, h]
      simp
  · -- slot already active: its Partition Queue is pushed in place
    obtain ⟨P1, P2, hPsplit, hPfresh⟩ := alookup_split hlk
    have hupd : aupdateF q.pqueues s (fun pq0 => pq0.push r2 (p, _slot_as_path s)) =
        P1 ++ (s, pq.push r2 (p, _slot_as_path s)) :: P2 := by
      rw [hPsplit]; exact aupdateF_of_split hPfresh
    have hmemold : ∀ e, e ∈ P1 ∨ e ∈ P2 → e ∈ q.pqueues := by
      intro e he
      rw [hPsplit]
      rcases he with h | h
      · exact List.mem_append.mpr (Or.inl h)
      · exact List.mem_append.mpr (Or.inr (List.mem_cons_of_mem _ h))
    refine ⟨⟨q._slots, aupdateF q.pqueues s
      (fun pq0 => pq0.push r2 (p, _slot_as_path s))⟩,
      ?_, ?_, fun _ => rfl, ?_, ?_, ?_, ?_⟩
    · simp [RoundRobinQueue.push, hres, hlk]
    · rw [size_eq_sum, size_eq_sum,
        show RoundRobinQueue.pqueues ⟨q._slots, aupdateF q.pqueues s
          (fun pq0 => pq0.push r2 (p, _slot_as_path s))⟩ = aupdateF q.pqueues s
          (fun pq0 => pq0.push r2 (p, _slot_as_path s)) from rfl, hupd, hPsplit]
      simp only [List.map_append, List.map_cons, List.sum_append, List.sum_cons]
      have := pq_push_len pq r2 (p, _slot_as_path s)
      omega
    · intro h
      exact absurd h (by simp)
    · intro hinv
      refine ⟨?_, ?_, hinv.2.2.1, ?_, ?_⟩
      · intro t ht
        by_cases hts : t = s
        · subst hts
          rw [show RoundRobinQueue.pqueues ⟨q._slots, aupdateF q.pqueues t
            (fun pq0 => pq0.push r2 (p, _slot_as_path t))⟩ = aupdateF q.pqueues t
            (fun pq0 => pq0.push r2 (p, _slot_as_path t)) from rfl,
            alookup_aupdateF_self _ hlk]
          rfl
        · rw [show RoundRobinQueue.pqueues ⟨q._slots, aupdateF q.pqueues s
            (fun pq0 => pq0.push r2 (p, _slot_as_path s))⟩ = aupdateF q.pqueues s
            (fun pq0 => pq0.push r2 (p, _slot_as_path s)) from rfl,
            alookup_aupdateF_ne (fun hc => hts hc.symm)]
          exact hinv.1 t ht
      · intro e he
        rw [show RoundRobinQueue.pqueues ⟨q._slots, aupdateF q.pqueues s
          (fun pq0 => pq0.push r2 (p, _slot_as_path s))⟩ = aupdateF q.pqueues s
          (fun pq0 => pq0.push r2 (p, _slot_as_path s)) from rfl, hupd] at he
        rcases List.mem_append.mp he with h | h
        · exact hinv.2.1 e (hmemold e (Or.inl h))
        · rcases List.mem_cons.mp h with rfl | h
          · exact hinv.2.1 (s, pq) (alookup_mem hlk)
          · exact hinv.2.1 e (hmemold e (Or.inr h))
      · rw [show RoundRobinQueue.pqueues ⟨q._slots, aupdateF q.pqueues s
          (fun pq0 => pq0.push r2 (p, _slot_as_path s))⟩ = aupdateF q.pqueues s
          (fun pq0 => pq0.push r2 (p, _slot_as_path s)) from rfl, aupdateF_keys]
        exact hinv.2.2.2.1
      · intro e he
        rw [show RoundRobinQueue.pqueues ⟨q._slots, aupdateF q.pqueues s
          (fun pq0 => pq0.push r2 (p, _slot_as_path s))⟩ = aupdateF q.pqueues s
          (fun pq0 => pq0.push r2 (p, _slot_as_path s)) from rfl, hupd] at he
        rcases List.mem_append.mp he with h | h
        · exact hinv.2.2.2.2 e (hmemold e (Or.inl h))
        · rcases List.mem_cons.mp h with rfl | h
          · exact ⟨pq_push_wf (hinv.2.2.2.2 (s, pq) (alookup_mem hlk)).1 r2 _,
              pq_push_ne_nil pq r2 _⟩
          · exact hinv.2.2.2.2 e (hmemold e (Or.inr h))
    · intro hinv hip e he b hb
      rw [show RoundRobinQueue.pqueues ⟨q._slots, aupdateF q.pqueues s
        (fun pq0 => pq0.push r2 (p, _slot_as_path s))⟩ = aupdateF q.pqueues s
        (fun pq0 => pq0.push r2 (p, _slot_as_path s)) from rfl, hupd] at he
      rcases List.mem_append.mp he with h | h
      · exact hip e (hmemold e (Or.inl h)) b hb
      · rcases List.mem_cons.mp h with rfl | h
        · rcases pq_push_key_mem hb with hk | hk
          · obtain ⟨b0, hb0, hb0eq⟩ := List.mem_map.mp hk
            have := hip (s, pq) (alookup_mem hlk) b0 hb0
            rw [hb0eq] at this
            exact this
          · rw [hk]
        · exact hip e (hmemold e (Or.inr h)) b hb
    · intro h
      rw [show RoundRobinQueue._slots ⟨q._slots, aupdateF q.pqueues s
        (fun pq0 => pq0.push r2 (p, _slot_as_path s))⟩ = q._slots from rfl, h,
        show RoundRobinQueue.pqueues ⟨q._slots, aupdateF q.pqueues s
          (fun pq0 => pq0.push r2 (p, _slot_as_path s))⟩ = aupdateF q.pqueues s
          (fun pq0 => pq0.push r2 (p, _slot_as_path s)) from rfl, aupdateF_keys]

/-- A raising `push` carries the untouched queue in its error value. -/
theorem push_error_state {q : RoundRobinQueue} {r : Req} {p : Int}
    {e : String × RoundRobinQueue} (h : q.push r p = .error e) : e.2 = q := by
  unfold RoundRobinQueue.push at h
  rcases hres : scheduler_slot r with msg | pr
  · rw [hres] at h
    simp only [Except.error.injEq] at h
    rw [← h]
  · rcases pr with ⟨s, r2⟩
    rw [hres] at h
    simp at h

/-- Every reachable queue satisfies both invariants. -/
theorem reach_inv {q : RoundRobinQueue} (h : Reach q) : InvCore q ∧ InvPath q := by
  induction h with
  | start => exact ⟨by decide, by decide⟩
  | @pushOk q r p q' hr hp ih =>
    rcases hres : scheduler_slot r with msg | pr
    · have hcomp : q.push r p = .error (msg, q) := by
        simp [RoundRobinQueue.push, hres]
      rw [hcomp] at hp
      simp at hp
    · rcases pr with ⟨s, r2⟩
      obtain ⟨q'', hpush, -, -, -, hc, hpth, -⟩ := push_ok hres
      rw [hpush] at hp
      have h3 := Except.ok.inj hp
      rw [← h3]
      exact ⟨hc ih.1, hpth ih.1 ih.2⟩
  | @pushErr q r p e hr hp ih =>
    have h2 := push_error_state hp
    rw [h2]
    exact ih
  | @popOk q x q' hr hpop ih =>
    rcases hs : q._slots with _ | ⟨s, rest⟩
    · have hcomp : q.popWithSlot = Except.ok (none, q) := by
        simp [RoundRobinQueue.popWithSlot, hs]
      rw [hcomp] at hpop
      have h3 := Except.ok.inj hpop
      have h4 : q = q' := congrArg Prod.snd h3
      rw [← h4]
      exact ih
    · obtain ⟨r, q'', hpw, hinv', hpath', -⟩ := popWithSlot_ok ih.1 hs
      rw [hpw] at hpop
      have h3 := Except.ok.inj hpop
      have h4 : q'' = q' := congrArg Prod.snd h3
      rw [← h4]
      exact ⟨hinv', hpath' ih.2⟩
  | @popErr q e hr hpop ih =>
    rcases hs : q._slots with _ | ⟨s, rest⟩
    · have hcomp : q.popWithSlot = Except.ok (none, q) := by
        simp [RoundRobinQueue.popWithSlot, hs]
      rw [hcomp] at hpop
      simp at hpop
    · obtain ⟨r, q'', hpw, -⟩ := popWithSlot_ok ih.1 hs
      rw [hpw] at hpop
      simp at hpop

theorem scheduler_slot_of_slotKey {r : Req} {s : String}
    (h : slotKeyOf r = some s) : scheduler_slot r = .ok (s, resolvedReq r) := by
  unfold slotKeyOf at h
  unfold resolvedReq
  rcases hres : scheduler_slot r with msg | pr
  · rw [hres] at h
    simp at h
  · rcases pr with ⟨s', r2⟩
    rw [hres] at h
    simp only [Option.some.injEq] at h
    subst h
    rfl

theorem push_single {s : String} {r r2 : Req} (p : Int) (B : List (Prio × List Req))
    (hres : scheduler_slot r = .ok (s, r2))
    (hfresh : ∀ b ∈ B, b.1 ≠ (p, _slot_as_path s)) :
    (singleSlotQueue s B).push r p =
      .ok (singleSlotQueue s (B ++ [((p, _slot_as_path s), [r2])])) := by
  have hlkB : alookup B (p, _slot_as_path s) = none := alookup_none_iff.mpr hfresh
  simp [RoundRobinQueue.push, hres, singleSlotQueue, alookup, aupdateF,
    PriorityAsTupleQueue.push, hlkB]

theorem push_from_empty {s : String} {r r2 : Req} (p : Int)
    (hres : scheduler_slot r = .ok (s, r2)) :
    RoundRobinQueue.empty.push r p =
      .ok (singleSlotQueue s [((p, _slot_as_path s), [r2])]) := by
  simp [RoundRobinQueue.push, hres, RoundRobinQueue.empty, singleSlotQueue,
    alookup, aupdateF, PriorityAsTupleQueue.push]

/-- Pushing a same-slot sequence with fresh priorities appends one singleton
bucket per push, in order. -/
theorem pushRun_single (s : String) :
    ∀ (pairs : List (Req × Int)) (B : List (Prio × List Req)),
      (∀ pr ∈ pairs, slotKeyOf pr.1 = some s) →
      ((B.map (fun b => b.1.1)) ++ pairs.map Prod.snd).Nodup →
      (∀ b ∈ B, b.1.2 = _slot_as_path s) →
      RoundRobinQueue.pushRun (singleSlotQueue s B) pairs =
        singleSlotQueue s (B ++ pairs.map (slotEntry s)) := by
  intro pairs
  induction pairs with
  | nil =>
    intro B _ _ _
    simp [RoundRobinQueue.pushRun]
  | cons pr rest ih =>
    intro B hslot hnd hsnd
    have hres := scheduler_slot_of_slotKey (hslot pr (by simp))
    have hmidnd : pr.2 ∉ B.map (fun b => b.1.1) := by
      have h2 : ((B.map (fun b => b.1.1)) ++ pr.2 :: rest.map Prod.snd).Nodup := by
        simpa using hnd
      rw [List.nodup_middle, List.nodup_cons] at h2
      intro hc
      exact h2.1 (List.mem_append.mpr (Or.inl hc))
    have hfreshB : ∀ b ∈ B, b.1 ≠ (pr.2, _slot_as_path s) := by
      intro b hb hc
      apply hmidnd
      have : b.1.1 = pr.2 := by rw [hc]
      rw [← this]
      exact List.mem_map_of_mem (fun b => b.1.1) hb
    have hstep : RoundRobinQueue.pushRun (singleSlotQueue s B) (pr :: rest) =
        RoundRobinQueue.pushRun (singleSlotQueue s (B ++ [slotEntry s pr])) rest := by
      have hp := push_single pr.2 B hres hfreshB
      simp only [RoundRobinQueue.pushRun, List.foldl_cons]
      rw [show (match (singleSlotQueue s B).push pr.1 pr.2 with
        | .ok q' => q'
        | .error e => e.2) = singleSlotQueue s (B ++ [slotEntry s pr]) from by
          rw [hp]; rfl]
    rw [hstep, ih (B ++ [slotEntry s pr])
      (fun pr2 h2 => hslot pr2 (by simp [h2])) ?_ ?_]
    · simp [slotEntry]
    · have : (B ++ [slotEntry s pr]).map (fun b => b.1.1) =
        B.map (fun b => b.1.1) ++ [pr.2] := by simp [slotEntry]
      rw [this, List.append_assoc]
      simpa using hnd
    · intro b hb
      rcases List.mem_append.mp hb with h | h
      · exact hsnd b h
      · rcases List.mem_cons.mp h with rfl | h
        · rfl
        · simp at h

theorem pqDrain_of_len_zero {pq : PriorityAsTupleQueue} (h : pq.len = 0) :
    ∀ n, pqDrain n pq = [] := by
  have hmax : pq.maxActive = none := by
    rcases hm : pq.maxActive with _ | k
    · rfl
    · exfalso
      rcases foldl_maxAcc_some hm with hc | ⟨e, he, hne, -⟩
      · exact absurd hc (by simp)
      · have hlen : 0 < e.2.length := by
          rcases hb : e.2 with _ | ⟨x, xs⟩
          · rw [hb] at hne; simp at hne
          · simp
        have hle : e.2.length ≤ pq.len := by
          rw [PriorityAsTupleQueue.len]
          exact List.single_le_sum (fun x _ => Nat.zero_le x) _
            (List.mem_map_of_mem (fun b => b.2.length) he)
        omega
  intro n
  cases n with
  | zero => rfl
  | succ n => simp [pqDrain, PriorityAsTupleQueue.popEntry, hmax]

/-- Draining a single-slot queue is draining its Partition Queue. -/
theorem drain_single (s : String) :
    ∀ (n : Nat) (pq : PriorityAsTupleQueue),
      RoundRobinQueue.drain n (singleSlotQueue s pq.queues) =
        (pqDrain n pq).map (fun e => (s, e.2)) := by
  intro n
  induction n with
  | zero => intro pq; simp [RoundRobinQueue.drain, pqDrain]
  | succ n ih =>
    intro pq
    have hlk : alookup [(s, (⟨pq.queues⟩ : PriorityAsTupleQueue))] s =
        some ⟨pq.queues⟩ := by simp [alookup]
    rcases hpe : pq.popEntry with ⟨x, pq'⟩
    rcases x with _ | e
    · by_cases hpos : 0 < pq'.len <;>
        simp [RoundRobinQueue.drain, RoundRobinQueue.popWithSlot, singleSlotQueue,
          alookup, PriorityAsTupleQueue.popReq, hpe, pqDrain, hpos]
    · by_cases hpos : 0 < pq'.len
      · have hq' : RoundRobinQueue.drain (n + 1) (singleSlotQueue s pq.queues) =
            (s, e.2) :: RoundRobinQueue.drain n (singleSlotQueue s pq'.queues) := by
          simp [RoundRobinQueue.drain, RoundRobinQueue.popWithSlot, singleSlotQueue,
            alookup, PriorityAsTupleQueue.popReq, hpe, hpos, aupdateF]
        rw [hq', ih pq']
        simp [pqDrain, hpe]
      · have hlen0 : pq'.len = 0 := by omega
        have hq' : RoundRobinQueue.drain (n + 1) (singleSlotQueue s pq.queues) =
            (s, e.2) :: RoundRobinQueue.drain n ⟨[], []⟩ := by
          simp [RoundRobinQueue.drain, RoundRobinQueue.popWithSlot, singleSlotQueue,
            alookup, PriorityAsTupleQueue.popReq, hpe, hpos, aerase]
        rw [hq']
        have hdone : RoundRobinQueue.drain n (⟨[], []⟩ : RoundRobinQueue) = [] := by
          cases n with
          | zero => rfl
          | succ n => simp [RoundRobinQueue.drain, RoundRobinQueue.popWithSlot]
        rw [hdone]
        simp [pqDrain, hpe, pqDrain_of_len_zero hlen0]

theorem entriesL_map_slotEntry (s : String) (pairs : List (Req × Int)) :
    entriesL (pairs.map (slotEntry s)) =
      pairs.map (fun pr => ((pr.2, _slot_as_path s), resolvedReq pr.1)) := by
  induction pairs with
  | nil => rfl
  | cons pr rest ih =>
    simp only [List.map_cons, entriesL_cons, ih, slotEntry]
    simp

theorem keys_map_slotEntry (s : String) (pairs : List (Req × Int)) :
    (pairs.map (slotEntry s)).map Prod.fst =
      (pairs.map Prod.snd).map (fun i => (i, _slot_as_path s)) := by
  simp [slotEntry]

theorem singleSlot_size (s : String) (B : List (Prio × List Req)) :
    (singleSlotQueue s B).size = (⟨B⟩ : PriorityAsTupleQueue).len := by
  simp [singleSlotQueue, RoundRobinQueue.size]

/-- C1: pushing any sequence of requests that all resolve to the same slot,
with pairwise distinct priorities, and then popping until empty returns
exactly the pushed requests (as stored), in strictly decreasing order of the
priority passed to `push`. -/
theorem single_slot_pops_strictly_decreasing
    (pairs : List (Req × Int)) (s : String)
    (hslot : ∀ pr ∈ pairs, slotKeyOf pr.1 = some s)
    (hdist : (pairs.map Prod.snd).Nodup) :
    ∃ po : List (Req × Int),
      List.Perm po (storedPairs pairs) ∧
      (po.map Prod.snd).Pairwise (fun a b => b < a) ∧
      (RoundRobinQueue.pushRun .empty pairs).drainedReqs = po.map Prod.fst := by
  rcases pairs with _ | ⟨pr0, rest⟩
  · exact ⟨[], by simp [storedPairs], by simp, by decide⟩
  · have hres0 := scheduler_slot_of_slotKey (hslot pr0 (by simp))
    have hstate : RoundRobinQueue.pushRun .empty (pr0 :: rest) =
        singleSlotQueue s ((pr0 :: rest).map (slotEntry s)) := by
      have h1 : RoundRobinQueue.pushRun .empty (pr0 :: rest) =
          RoundRobinQueue.pushRun (singleSlotQueue s [slotEntry s pr0]) rest := by
        simp only [RoundRobinQueue.pushRun, List.foldl_cons]
        rw [show (match RoundRobinQueue.empty.push pr0.1 pr0.2 with
          | .ok q' => q'
          | .error e => e.2) = singleSlotQueue s [slotEntry s pr0] from by
            rw [push_from_empty pr0.2 hres0]; rfl]
      rw [h1, pushRun_single s rest [slotEntry s pr0]
        (fun pr2 h2 => hslot pr2 (by simp [h2]))
        (by simpa [slotEntry] using hdist)
        (by intro b hb; rcases List.mem_cons.mp hb with rfl | h; rfl; simp at h)]
      simp
    have hwfE : PQWf ⟨(pr0 :: rest).map (slotEntry s)⟩ := by
      constructor
      · show (((pr0 :: rest).map (slotEntry s)).map Prod.fst).Nodup
        rw [keys_map_slotEntry]
        exact hdist.map (fun a b h => congrArg Prod.fst h)
      · intro b hb
        obtain ⟨pr, -, rfl⟩ := List.mem_map.mp hb
        simp [slotEntry]
    have hsingE : ∀ b ∈ (⟨(pr0 :: rest).map (slotEntry s)⟩ :
        PriorityAsTupleQueue).queues, b.2.length = 1 := by
      intro b hb
      obtain ⟨pr, -, rfl⟩ := List.mem_map.mp hb
      simp [slotEntry]
    have hsndE : ∀ e ∈ (⟨(pr0 :: rest).map (slotEntry s)⟩ :
        PriorityAsTupleQueue).entries, e.1.2 = _slot_as_path s := by
      intro e he
      have hk := entries_key_mem he
      rw [keys_map_slotEntry] at hk
      obtain ⟨i, -, hik⟩ := List.mem_map.mp hk
      rw [← hik]
    have hperm := pqDrain_perm hwfE rfl
    have hsort := pqDrain_sorted hwfE hsingE rfl
    refine ⟨(pqDrain (⟨(pr0 :: rest).map (slotEntry s)⟩ :
      PriorityAsTupleQueue).len ⟨(pr0 :: rest).map (slotEntry s)⟩).map
        (fun e => (e.2, e.1.1)), ?_, ?_, ?_⟩
    · have h2 : (⟨(pr0 :: rest).map (slotEntry s)⟩ :
          PriorityAsTupleQueue).entries =
          (pr0 :: rest).map (fun pr => ((pr.2, _slot_as_path s), resolvedReq pr.1)) :=
        entriesL_map_slotEntry s (pr0 :: rest)
      have h3 := hperm.map (fun e => (e.2, e.1.1))
      rw [h2] at h3
      simpa [storedPairs, Function.comp] using h3
    · rw [List.map_map, List.pairwise_map]
      refine hsort.imp_of_mem ?_
      intro a b ha hb hR
      have hsa : a.1.2 = _slot_as_path s := hsndE a (hperm.subset ha)
      have hsb : b.1.2 = _slot_as_path s := hsndE b (hperm.subset hb)
      exact prioLtb_same_snd (by rw [hsb, hsa]) hR
    · rw [RoundRobinQueue.drainedReqs, hstate, singleSlot_size,
        drain_single s _ ⟨(pr0 :: rest).map (slotEntry s)⟩]
      simp

/-- C2: from any invariant-satisfying state with `N` active slots, the next
`N` consecutive pops serve the `N` pairwise distinct slots of the rotation,
one entry from each, in rotation order. -/
theorem round_robin_rotation (q : RoundRobinQueue) (hinv : InvCore q) :
    (RoundRobinQueue.drain q._slots.length q).map Prod.fst = q._slots ∧
    q._slots.Nodup := by
  refine ⟨?_, hinv.2.2.1⟩
  rw [drain_slots_take hinv q._slots.length le_rfl]
  exact List.take_length q._slots

theorem aerase_of_not_mem {α β : Type} [DecidableEq α] {l : List (α × β)} {k : α}
    (h : alookup l k = none) : aerase l k = l := by
  induction l with
  | nil => rfl
  | cons e es ih =>
    rw [alookup_none_iff] at h
    have he : e.1 ≠ k := h e (by simp)
    simp only [aerase, he, if_false, List.cons.injEq, true_and]
    exact ih (alookup_none_iff.mpr (fun e' he' => h e' (by simp [he'])))

theorem alookup_aerase_self_of_nodup {α β : Type} [DecidableEq α]
    {l : List (α × β)} {k : α} (hnd : (l.map Prod.fst).Nodup) :
    alookup (aerase l k) k = none := by
  rcases hlk : alookup l k with _ | v
  · rw [aerase_of_not_mem hlk, hlk]
  · obtain ⟨l1, l2, hsplit, hfresh⟩ := alookup_split hlk
    rw [hsplit, aerase_of_split hfresh, alookup_append_left hfresh]
    rw [hsplit] at hnd
    rw [show ((l1 ++ (k, v) :: l2).map Prod.fst) =
      l1.map Prod.fst ++ k :: l2.map Prod.fst from by simp, List.nodup_middle,
      List.nodup_cons] at hnd
    rw [alookup_none_iff]
    intro e he hk
    exact hnd.1 (List.mem_append.mpr (Or.inr (hk ▸ List.mem_map_of_mem Prod.fst he)))

/-- C3: in every queue reachable from the empty queue by pushes and pops, a
slot is in the rotation iff its Partition Queue exists and is non-empty; a
pop that empties the head slot's queue removes the slot from both
structures, while one that leaves entries re-appends it at the rotation
tail; a successful push keeps the rotation unchanged when the slot already
has a Partition Queue and appends the slot at the rotation tail otherwise. -/
theorem rotation_iff_nonempty (q : RoundRobinQueue) (h : Reach q) :
    (∀ s, s ∈ q._slots ↔ ∃ pq, alookup q.pqueues s = some pq ∧ 0 < pq.len) ∧
    (∀ s rest, q._slots = s :: rest → ∀ pq, alookup q.pqueues s = some pq →
      (pq.popReq.2.len = 0 →
        ∃ q', q.popWithSlot = .ok (some (s, pq.popReq.1), q') ∧
          s ∉ q'._slots ∧ alookup q'.pqueues s = none) ∧
      (0 < pq.popReq.2.len →
        ∃ q', q.popWithSlot = .ok (some (s, pq.popReq.1), q') ∧
          q'._slots = rest ++ [s] ∧
          alookup q'.pqueues s = some pq.popReq.2)) ∧
    (∀ r p s q', slotKeyOf r = some s → q.push r p = .ok q' →
      ((alookup q.pqueues s).isSome = true → q'._slots = q._slots) ∧
      (alookup q.pqueues s = none → q'._slots = q._slots ++ [s])) := by
  obtain ⟨hinv, -⟩ := reach_inv h
  refine ⟨?_, ?_, ?_⟩
  · intro s
    constructor
    · intro hs
      obtain ⟨pq, hlk⟩ := Option.isSome_iff_exists.mp (hinv.1 s hs)
      obtain ⟨hwf, hne⟩ := hinv.2.2.2.2 (s, pq) (alookup_mem hlk)
      exact ⟨pq, hlk, len_pos_of_ne_nil hwf hne⟩
    · rintro ⟨pq, hlk, -⟩
      exact hinv.2.1 (s, pq) (alookup_mem hlk)
  · intro s rest hslots pq hlk
    have hsnotrest : s ∉ rest := by
      have h2 := hinv.2.2.1
      rw [hslots] at h2
      exact (List.nodup_cons.mp h2).1
    constructor
    · intro hlen0
      refine ⟨⟨rest, aerase q.pqueues s⟩, ?_, hsnotrest, ?_⟩
      · have hnopos : ¬ 0 < pq.popReq.2.len := by omega
        simp [RoundRobinQueue.popWithSlot, hslots, hlk, hnopos]
      · exact alookup_aerase_self_of_nodup hinv.2.2.2.1
    · intro hpos
      refine ⟨⟨rest ++ [s], aupdateF q.pqueues s (fun _ => pq.popReq.2)⟩, ?_, rfl, ?_⟩
      · simp [RoundRobinQueue.popWithSlot, hslots, hlk, hpos]
      · exact alookup_aupdateF_self _ hlk
  · intro r p s q' hkey hp
    have hres := scheduler_slot_of_slotKey hkey
    obtain ⟨q'', hpush, -, hsome, hnone, -⟩ := push_ok hres
    rw [hpush] at hp
    have h4 : q'' = q' := Except.ok.inj hp
    rw [← h4]
    exact ⟨hsome, hnone⟩

theorem close_eq_keys {pq : PriorityAsTupleQueue}
    (h : ∀ b ∈ pq.queues, b.2 ≠ []) :
    pq.close = pq.queues.map Prod.fst := by
  rw [PriorityAsTupleQueue.close, List.filter_eq_self.mpr]
  intro b hb
  simpa [List.isEmpty_iff] using h b hb

theorem foldl_dictSet_fresh {α β : Type} [DecidableEq α] (f : α → β) :
    ∀ (ks : List α) (acc : List (α × β)),
      (∀ k ∈ ks, alookup acc k = none) → ks.Nodup →
      ks.foldl (fun a p => dictSet a p (f p)) acc = acc ++ ks.map (fun p => (p, f p)) := by
  intro ks
  induction ks with
  | nil => intro acc _ _; simp
  | cons k rest ih =>
    intro acc hfresh hnd
    have hk : alookup acc k = none := hfresh k (by simp)
    have hstep : dictSet acc k (f k) = acc ++ [(k, f k)] := by
      simp [dictSet, hk]
    simp only [List.foldl_cons, hstep]
    rw [ih (acc ++ [(k, f k)]) ?_ (List.nodup_cons.mp hnd).2]
    · simp
    · intro k' hk'
      rw [alookup_append, hfresh k' (by simp [hk'])]
      have hne : k ≠ k' := by
        intro hc
        exact (List.nodup_cons.mp hnd).1 (hc ▸ hk')
      simp [alookup, hne]

theorem ofStartprios_eq (qf : Prio → List Req) {ks : List Prio} (hnd : ks.Nodup) :
    PriorityAsTupleQueue.ofStartprios qf ks = ⟨ks.map (fun p => (p, qf p))⟩ := by
  rw [PriorityAsTupleQueue.ofStartprios]
  rw [foldl_dictSet_fresh qf ks [] (fun k _ => rfl) hnd]
  rfl

theorem diskFind_spec {P1 P2 : List (String × PriorityAsTupleQueue)}
    {s : String} {pq : PriorityAsTupleQueue} {p : Prio} {b : List Req}
    (hskip : ∀ e ∈ P1, alookup e.2.queues p = none)
    (hfound : alookup pq.queues p = some b) :
    diskFind (P1 ++ (s, pq) :: P2) p = b := by
  induction P1 with
  | nil => simp [diskFind, hfound]
  | cons e es ih =>
    simp only [List.cons_append, diskFind, hskip e (by simp)]
    exact ih (fun e' he' => hskip e' (by simp [he']))

theorem map_fst_pair_eq {α β : Type} {g : α → β} :
    ∀ {l : List (α × β)}, (∀ x ∈ l, g x.1 = x.2) →
      (l.map Prod.fst).map (fun p => (p, g p)) = l := by
  intro l
  induction l with
  | nil => intro _; rfl
  | cons x xs ih =>
    intro h
    simp only [List.map_cons, List.cons.injEq]
    constructor
    · rw [h x (by simp)]
    · exact ih (fun x' hx' => h x' (by simp [hx']))

/-- The constructor on a mapping snapshot: rotation and Partition Queues
rebuilt in snapshot iteration order. -/
theorem ofSnapshot_asDict (qf : Prio → List Req)
    (entries : List (String × List Prio)) :
    RoundRobinQueue.ofSnapshot qf (.asDict entries) =
      .ok ⟨entries.map Prod.fst,
        entries.map (fun e => (e.1, PriorityAsTupleQueue.ofStartprios qf e.2))⟩ := by
  rcases entries with _ | ⟨e, es⟩
  · rfl
  · rfl

/-- Reconstructing from a close-time snapshot of an invariant-satisfying
queue rebuilds exactly the `pqueues` dict, with the rotation reset to the
dict's insertion order. -/
theorem reopen_eq {q : RoundRobinQueue} (hinv : InvCore q) (hpath : InvPath q)
    (hpd : pathsDistinct q) :
    q.reopenOf = ⟨q.pqueues.map Prod.fst, q.pqueues⟩ := by
  have hperentry : ∀ e ∈ q.pqueues,
        PriorityAsTupleQueue.ofStartprios q.diskOf e.2.close = e.2 := by
      intro e he
      obtain ⟨hwf, -⟩ := hinv.2.2.2.2 e he
      have hclose : e.2.close = e.2.queues.map Prod.fst :=
        close_eq_keys (hwf.2)
      rw [hclose, ofStartprios_eq q.diskOf hwf.1]
      have hdisk : ∀ x ∈ e.2.queues, q.diskOf x.1 = x.2 := by
        intro x hx
        obtain ⟨P1, P2, hsplit⟩ := List.append_of_mem he
        have hkeyx : x.1.2 = _slot_as_path e.1 := hpath e he x hx
        have hpaths : _slot_as_path e.1 ∉ P1.map (fun e' => _slot_as_path e'.1) := by
          have hnd := hpd
          rw [pathsDistinct, hsplit] at hnd
          rw [show ((P1 ++ e :: P2).map (fun e' => _slot_as_path e'.1)) =
            P1.map (fun e' => _slot_as_path e'.1) ++ _slot_as_path e.1 ::
              P2.map (fun e' => _slot_as_path e'.1) from by simp] at hnd
          rw [List.nodup_middle, List.nodup_cons] at hnd
          intro hc
          exact hnd.1 (List.mem_append.mpr (Or.inl hc))
        have hskip : ∀ e' ∈ P1, alookup e'.2.queues x.1 = none := by
          intro e' he'
          rw [alookup_none_iff]
          intro b hb hc
          have h1 : b.1.2 = _slot_as_path e'.1 :=
            hpath e' (by rw [hsplit]; exact List.mem_append.mpr (Or.inl he')) b hb
          have h2 : _slot_as_path e'.1 = _slot_as_path e.1 := by
            rw [← h1, hc, hkeyx]
          exact hpaths (h2 ▸ List.mem_map_of_mem (fun e'2 => _slot_as_path e'2.1) he')
        have hfound : alookup e.2.queues x.1 = some x.2 :=
          mem_nodup_alookup (by rcases x with ⟨x1, x2⟩; exact hx) hwf.1
        rw [RoundRobinQueue.diskOf, hsplit]
        rcases e with ⟨s0, pq0⟩
        exact diskFind_spec hskip hfound
      rw [map_fst_pair_eq hdisk]
  rw [RoundRobinQueue.reopenOf, ofSnapshot_asDict]
  have h1 : q.closeSnap.map Prod.fst = q.pqueues.map Prod.fst := by
    rw [RoundRobinQueue.closeSnap]
    simp
  have h2 : q.closeSnap.map
      (fun e => (e.1, PriorityAsTupleQueue.ofStartprios q.diskOf e.2)) =
      q.pqueues := by
    rw [RoundRobinQueue.closeSnap, List.map_map]
    have h3 : ∀ e ∈ q.pqueues,
        ((fun e => (e.1, PriorityAsTupleQueue.ofStartprios q.diskOf e.2)) ∘
          (fun e => (e.1, e.2.close))) e = id e := by
      intro e he
      simp only [Function.comp, id]
      rw [hperentry e he]
    rw [List.map_congr_left h3, List.map_id]
  rw [h1, h2]

theorem pushRun_reach {q : RoundRobinQueue} (hr : Reach q)
    (pairs : List (Req × Int)) : Reach (RoundRobinQueue.pushRun q pairs) := by
  induction pairs generalizing q with
  | nil => exact hr
  | cons pr rest ih =>
    simp only [RoundRobinQueue.pushRun, List.foldl_cons]
    rcases hp : q.push pr.1 pr.2 with e | q'
    · exact ih (Reach.pushErr hr hp)
    · exact ih (Reach.pushOk hr hp)

/-- Pushing alone never desynchronizes the rotation from the dict order. -/
theorem pushRun_slots_eq_keys (pairs : List (Req × Int)) :
    ∀ q : RoundRobinQueue, q._slots = q.pqueues.map Prod.fst →
      (RoundRobinQueue.pushRun q pairs)._slots =
        (RoundRobinQueue.pushRun q pairs).pqueues.map Prod.fst := by
  induction pairs with
  | nil => intro q h; exact h
  | cons pr rest ih =>
    intro q h
    simp only [RoundRobinQueue.pushRun, List.foldl_cons]
    rcases hp : q.push pr.1 pr.2 with e | q'
    · have h2 := push_error_state hp
      exact ih e.2 (h2 ▸ h)
    · rcases hres : scheduler_slot pr.1 with msg | ⟨s, r2⟩
      · have : q.push pr.1 pr.2 = .error (msg, q) := by
          simp [RoundRobinQueue.push, hres]
        rw [this] at hp
        simp at hp
      · obtain ⟨q'', hpush, -, -, -, -, -, halign⟩ := push_ok hres
        rw [hpush] at hp
        have h4 : q'' = q' := Except.ok.inj hp
        exact ih q' (h4 ▸ halign h)

/-- The close/reopen round trip preserves the multiset of requests the queue
will hand out. -/
theorem reopen_invCore {q : RoundRobinQueue} (hinv : InvCore q)
    (he : q.reopenOf = ⟨q.pqueues.map Prod.fst, q.pqueues⟩) :
    InvCore q.reopenOf := by
  rw [he]
  refine ⟨?_, ?_, hinv.2.2.2.1, hinv.2.2.2.1, hinv.2.2.2.2⟩
  · intro s hs
    obtain ⟨e, hemem, hefst⟩ := List.mem_map.mp hs
    rw [show RoundRobinQueue.pqueues ⟨q.pqueues.map Prod.fst, q.pqueues⟩ =
      q.pqueues from rfl]
    rw [show s = (e.1, e.2).1 from by simp [hefst]]
    rw [mem_nodup_alookup (by simpa using hemem) hinv.2.2.2.1]
    rfl
  · intro e hemem
    exact List.mem_map_of_mem Prod.fst hemem

/-- One `pop()` against a state whose rotation head has a Partition Queue:
the resulting state, written out. -/
theorem popWithSlot_state {q : RoundRobinQueue} {s0 : String}
    {rest : List String} (hslots : q._slots = s0 :: rest)
    {pq : PriorityAsTupleQueue} (hlk : alookup q.pqueues s0 = some pq) :
    (0 < pq.popReq.2.len →
      q.popWithSlot = .ok (some (s0, pq.popReq.1),
        ⟨rest ++ [s0], aupdateF q.pqueues s0 (fun _ => pq.popReq.2)⟩)) ∧
    (pq.popReq.2.len = 0 →
      q.popWithSlot = .ok (some (s0, pq.popReq.1),
        ⟨rest, aerase q.pqueues s0⟩)) := by
  constructor
  · intro h
    simp [RoundRobinQueue.popWithSlot, hslots, hlk, h]
  · intro h
    simp [RoundRobinQueue.popWithSlot, hslots, hlk, h]

/-- Draining a whole queue, projected to one slot: each slot's requests come
out exactly as draining that slot's own Partition Queue would hand them
out, whatever the rotation order — the cross-slot interleaving never
reorders a single slot's pops. -/
theorem drain_filter_slot :
    ∀ (n : Nat) (q : RoundRobinQueue), InvCore q → q.size = n → ∀ t,
      ((RoundRobinQueue.drain n q).filter
        (fun e => decide (e.1 = t))).map Prod.snd =
      (alookup q.pqueues t).elim []
        (fun pq => (pqDrain pq.len pq).map Prod.snd) := by
  intro n
  induction n with
  | zero =>
    intro q hinv hn t
    have hq : q.pqueues = [] := by
      rcases hqq : q.pqueues with _ | ⟨e, es⟩
      · rfl
      · exfalso
        obtain ⟨hwf, hne2⟩ := hinv.2.2.2.2 e
          (by rw [hqq]; exact List.mem_cons_self e es)
        have hpos := len_pos_of_ne_nil hwf hne2
        rw [size_eq_sum, hqq] at hn
        simp only [List.map_cons, List.sum_cons] at hn
        omega
    rw [hq]
    simp [RoundRobinQueue.drain, alookup]
  | succ n ih =>
    intro q hinv hn t
    have hne := slots_ne_nil_of_size_pos hinv (by omega)
    rcases hs : q._slots with _ | ⟨s0, rest⟩
    · exact absurd hs hne
    obtain ⟨pq, hlk⟩ := Option.isSome_iff_exists.mp
      (hinv.1 s0 (by rw [hs]; exact List.mem_cons_self s0 rest))
    obtain ⟨r, q', hpw, hinv', -, hsz, -, -⟩ := popWithSlot_ok hinv hs
    obtain ⟨hposstep, hzerostep⟩ := popWithSlot_state hs hlk
    have hq'size : q'.size = n := by omega
    have hdrain : RoundRobinQueue.drain (n + 1) q =
        (s0, r) :: RoundRobinQueue.drain n q' := by
      simp [RoundRobinQueue.drain, hpw]
    obtain ⟨hwfpq, hnepq⟩ := hinv.2.2.2.2 _ (alookup_mem hlk)
    obtain ⟨k, r0, pqt, hpop, -, hlen', -, -, -, -⟩ := popEntry_of_wf hwfpq hnepq
    have hpopreq : pq.popReq = (some r0, pqt) := by
      simp [PriorityAsTupleQueue.popReq, hpop]
    have hdrainpq : (pqDrain pq.len pq).map Prod.snd =
        r0 :: (pqDrain pqt.len pqt).map Prod.snd := by
      rw [← hlen']
      rw [show pqDrain (pqt.len + 1) pq = (k, r0) :: pqDrain pqt.len pqt from
        by simp [pqDrain, hpop]]
      rfl
    by_cases hl : 0 < pqt.len
    · have hpw2 := hposstep (by rw [hpopreq]; exact hl)
      rw [hpw] at hpw2
      have h2 := Except.ok.inj hpw2
      have hq' : q' = ⟨rest ++ [s0],
          aupdateF q.pqueues s0 (fun x => pq.popReq.2)⟩ :=
        congrArg Prod.snd h2
      have hr : some r = pq.popReq.1 :=
        congrArg (fun z => (z.1.getD ("", none)).2) h2
      rw [hpopreq] at hq' hr
      have hrr : r = r0 := by simpa using hr
      by_cases ht : t = s0
      · subst ht
        rw [hdrain, List.filter_cons, if_pos (by simp)]
        simp only [List.map_cons]
        rw [ih q' hinv' hq'size t]
        rw [hq']
        rw [show RoundRobinQueue.pqueues ⟨rest ++ [t],
          aupdateF q.pqueues t (fun x => pqt)⟩ =
          aupdateF q.pqueues t (fun x => pqt) from rfl]
        rw [alookup_aupdateF_self _ hlk]
        rw [hlk]
        simp only [Option.elim]
        rw [hdrainpq, hrr]
      · rw [hdrain, List.filter_cons,
          if_neg (by simp only [decide_eq_true_eq]; exact fun h3 => ht h3.symm)]
        rw [ih q' hinv' hq'size t]
        rw [hq']
        rw [show RoundRobinQueue.pqueues ⟨rest ++ [s0],
          aupdateF q.pqueues s0 (fun x => pqt)⟩ =
          aupdateF q.pqueues s0 (fun x => pqt) from rfl]
        rw [alookup_aupdateF_ne (fun h3 => ht h3.symm)]
    · have hl0 : pqt.len = 0 := by omega
      have hpw2 := hzerostep (by rw [hpopreq]; exact hl0)
      rw [hpw] at hpw2
      have h2 := Except.ok.inj hpw2
      have hq' : q' = ⟨rest, aerase q.pqueues s0⟩ :=
        congrArg Prod.snd h2
      have hr : some r = pq.popReq.1 :=
        congrArg (fun z => (z.1.getD ("", none)).2) h2
      rw [hpopreq] at hr
      have hrr : r = r0 := by simpa using hr
      by_cases ht : t = s0
      · subst ht
        rw [hdrain, List.filter_cons, if_pos (by simp)]
        simp only [List.map_cons]
        rw [ih q' hinv' hq'size t]
        rw [hq']
        rw [show RoundRobinQueue.pqueues ⟨rest, aerase q.pqueues t⟩ =
          aerase q.pqueues t from rfl]
        rw [alookup_aerase_self_of_nodup hinv.2.2.2.1]
        rw [hlk]
        simp only [Option.elim]
        rw [hdrainpq, hrr, hl0]
        rfl
      · rw [hdrain, List.filter_cons,
          if_neg (by simp only [decide_eq_true_eq]; exact fun h3 => ht h3.symm)]
        rw [ih q' hinv' hq'size t]
        rw [hq']
        rw [show RoundRobinQueue.pqueues ⟨rest, aerase q.pqueues s0⟩ =
          aerase q.pqueues s0 from rfl]
        rw [alookup_aerase_ne (fun h3 => ht h3.symm)]

theorem reopen_drain_perm {q : RoundRobinQueue} (hr : Reach q)
    (hpd : pathsDistinct q) :
    List.Perm q.reopenOf.drainedReqs q.drainedReqs := by
  obtain ⟨hinv, hpath⟩ := reach_inv hr
  have he := reopen_eq hinv hpath hpd
  have hinv' : InvCore q.reopenOf := reopen_invCore hinv he
  have hap : q.reopenOf.allPairs = q.allPairs := by
    rw [allPairs_eq_slotPairsL, allPairs_eq_slotPairsL, he]
  have hsz : q.reopenOf.size = q.size := by
    rw [size_eq_sum, size_eq_sum, he]
  have hp1 := drain_perm hinv' rfl
  have hp2 := drain_perm hinv rfl
  rw [RoundRobinQueue.drainedReqs, RoundRobinQueue.drainedReqs]
  refine (hp1.map Prod.snd).trans ?_
  rw [hap]
  exact ((hp2.map Prod.snd).symm)

/-- C4 counterexample: after one pop, a close/reopen changes the order of
the remaining pops — the snapshot does not capture the rotation order. -/
theorem close_reopen_changes_pop_order :
    (popDrop (RoundRobinQueue.pushRun .empty
      [(Req.request "u1" [("download_slot", "a")], 1),
       (Req.request "u2" [("download_slot", "b")], 9),
       (Req.request "u3" [("download_slot", "a")], 0)])).reopenOf.drainedReqs ≠
    (popDrop (RoundRobinQueue.pushRun .empty
      [(Req.request "u1" [("download_slot", "a")], 1),
       (Req.request "u2" [("download_slot", "b")], 9),
       (Req.request "u3" [("download_slot", "a")], 0)])).drainedReqs := by
  decide

/-- C4 (amended): with collision-free slot paths, close/reopen of a queue
built by pushes alone reconstructs the very same queue (so the subsequent
pops are identical); for every reachable queue the multiset of requests the
subsequent pops return is preserved, and within each slot the sequence of
popped requests — hence the per-slot priority order — is unchanged, though
the cross-slot order may differ (see the counterexample). -/
theorem close_reopen_roundtrip :
    (∀ pairs : List (Req × Int),
      pathsDistinct (RoundRobinQueue.pushRun .empty pairs) →
      (RoundRobinQueue.pushRun .empty pairs).reopenOf =
        RoundRobinQueue.pushRun .empty pairs) ∧
    (∀ q : RoundRobinQueue, Reach q → pathsDistinct q →
      List.Perm q.reopenOf.drainedReqs q.drainedReqs) ∧
    (∀ q : RoundRobinQueue, Reach q → pathsDistinct q → ∀ t,
      ((RoundRobinQueue.drain q.reopenOf.size q.reopenOf).filter
        (fun e => decide (e.1 = t))).map Prod.snd =
      ((RoundRobinQueue.drain q.size q).filter
        (fun e => decide (e.1 = t))).map Prod.snd) := by
  refine ⟨?_, ?_, ?_⟩
  · intro pairs hpd
    have hr := pushRun_reach Reach.start pairs
    obtain ⟨hinv, hpath⟩ := reach_inv hr
    have halign := pushRun_slots_eq_keys pairs RoundRobinQueue.empty rfl
    rw [reopen_eq hinv hpath hpd, ← halign]
  · intro q hr hpd
    exact reopen_drain_perm hr hpd
  · intro q hr hpd t
    obtain ⟨hinv, hpath⟩ := reach_inv hr
    have he := reopen_eq hinv hpath hpd
    have hinv' : InvCore q.reopenOf := reopen_invCore hinv he
    rw [drain_filter_slot q.reopenOf.size q.reopenOf hinv' rfl t,
        drain_filter_slot q.size q hinv rfl t]
    rw [he]

theorem close_reopen_roundtrip_witness :
    (RoundRobinQueue.pushRun .empty
      [(Req.request "u1" [("download_slot", "a")], 1),
       (Req.request "u2" [("download_slot", "b")], 9)]).reopenOf =
      RoundRobinQueue.pushRun .empty
        [(Req.request "u1" [("download_slot", "a")], 1),
         (Req.request "u2" [("download_slot", "b")], 9)] ∧
    List.Perm (RoundRobinQueue.pushRun .empty
      [(Req.request "u1" [("download_slot", "a")], 1),
       (Req.request "u2" [("download_slot", "b")], 9)]).reopenOf.drainedReqs
      (RoundRobinQueue.pushRun .empty
        [(Req.request "u1" [("download_slot", "a")], 1),
         (Req.request "u2" [("download_slot", "b")], 9)]).drainedReqs ∧
    ((RoundRobinQueue.drain (RoundRobinQueue.pushRun .empty
        [(Req.request "u1" [("download_slot", "a")], 1),
         (Req.request "u2" [("download_slot", "b")], 9)]).reopenOf.size
      (RoundRobinQueue.pushRun .empty
        [(Req.request "u1" [("download_slot", "a")], 1),
         (Req.request "u2" [("download_slot", "b")], 9)]).reopenOf).filter
        (fun e => decide (e.1 = "a"))).map Prod.snd =
      ((RoundRobinQueue.drain (RoundRobinQueue.pushRun .empty
        [(Req.request "u1" [("download_slot", "a")], 1),
         (Req.request "u2" [("download_slot", "b")], 9)]).size
      (RoundRobinQueue.pushRun .empty
        [(Req.request "u1" [("download_slot", "a")], 1),
         (Req.request "u2" [("download_slot", "b")], 9)])).filter
        (fun e => decide (e.1 = "a"))).map Prod.snd :=
  ⟨close_reopen_roundtrip.1 _ (by decide),
   close_reopen_roundtrip.2.1 _
     (pushRun_reach Reach.start _) (by decide),
   close_reopen_roundtrip.2.2 _
     (pushRun_reach Reach.start _) (by decide) "a"⟩

/-! ### Snapshot validation (reopen) -/

/-- C5 counterexample: an empty legacy list snapshot is not a mapping, yet
the constructor silently accepts it (Python falsiness is checked first). -/
theorem empty_list_snapshot_accepted :
    RoundRobinQueue.ofSnapshot (fun _ => []) (.asList []) =
      .ok RoundRobinQueue.empty := rfl

/-- C5 (amended): a non-empty legacy list snapshot makes the constructor
raise `ValueError` with the source's message, before any slot is entered
into the rotation or any Partition Queue is created (no state escapes); an
empty, falsy one is treated as no snapshot and yields the fresh empty
queue. -/
theorem malformed_snapshot_raises (qf : Prio → List Req) (x : Int)
    (xs : List Int) :
    RoundRobinQueue.ofSnapshot qf (.asList (x :: xs)) = .error malformedMsg ∧
    RoundRobinQueue.ofSnapshot qf (.asList []) = .ok RoundRobinQueue.empty :=
  ⟨rfl, rfl⟩

theorem alookup_dictSet_self {α β : Type} [DecidableEq α]
    (l : List (α × β)) (k : α) (v : β) :
    alookup (dictSet l k v) k = some v := by
  unfold dictSet
  rcases hlk : alookup l k with _ | w
  · simp only [Option.isSome_none, Bool.false_eq_true, if_false]
    rw [alookup_append, hlk]
    simp [alookup]
  · simp only [Option.isSome_some, if_true]
    exact alookup_aupdateF_self _ hlk

/-- C6 counterexample: a plain mapping without a metadata entry gets its
slot derived from the host, but the write-back lands in the default fresh
dict and is lost — no override is observable afterwards. -/
theorem mapping_without_meta_writeback_lost :
    scheduler_slot (Req.dict "http://a.example/x" none) =
      .ok ("a.example", Req.dict "http://a.example/x" none) ∧
    slotOverrideOf (Req.dict "http://a.example/x" none) = none := by
  decide

/-- C6 (amended): resolving a request without a slot override derives the
key from the URL host component (empty if unparsable); when the request
exposes a stored metadata mapping (a structured request, or a mapping with
a metadata entry) the key is written back, observable afterwards, and every
later resolution returns the same key and state; for a mapping without a
metadata entry the same key is returned but the write-back is lost. -/
theorem slot_resolution_writeback :
    (∀ r m, storedMetaOf r = some m →
      alookup m SCHEDULER_SLOT_META_KEY = none →
      ∃ r', scheduler_slot r =
          .ok ((urlparse_hostname (urlOfD r)).getD "", r') ∧
        slotOverrideOf r' = some ((urlparse_hostname (urlOfD r)).getD "") ∧
        scheduler_slot r' =
          .ok ((urlparse_hostname (urlOfD r)).getD "", r')) ∧
    (∀ url, scheduler_slot (.dict url none) =
      .ok ((urlparse_hostname url).getD "", .dict url none)) := by
  constructor
  · intro r m hm hov
    rcases r with ⟨url, mo⟩ | ⟨url, m2⟩ | cls
    · rcases mo with _ | m0
      · simp [storedMetaOf] at hm
      · have hm0 : m0 = m := by simpa [storedMetaOf] using hm
        subst hm0
        refine ⟨.dict url (some (dictSet m0 SCHEDULER_SLOT_META_KEY
          ((urlparse_hostname url).getD ""))), ?_, ?_, ?_⟩
        · simp [scheduler_slot, get_meta_from_request, hov,
            get_url_from_request, metaWriteBack, urlOfD, Bind.bind, Except.bind, pure, Except.pure]
        · simp [slotOverrideOf, storedMetaOf, alookup_dictSet_self, urlOfD]
        · simp [scheduler_slot, get_meta_from_request, alookup_dictSet_self,
            urlOfD, Bind.bind, Except.bind, pure, Except.pure]
    · have hm2 : m2 = m := by simpa [storedMetaOf] using hm
      subst hm2
      refine ⟨.request url (dictSet m2 SCHEDULER_SLOT_META_KEY
        ((urlparse_hostname url).getD "")), ?_, ?_, ?_⟩
      · simp [scheduler_slot, get_meta_from_request, hov,
          get_url_from_request, metaWriteBack, urlOfD, Bind.bind, Except.bind, pure, Except.pure]
      · simp [slotOverrideOf, storedMetaOf, alookup_dictSet_self, urlOfD]
      · simp [scheduler_slot, get_meta_from_request, alookup_dictSet_self,
          urlOfD, Bind.bind, Except.bind, pure, Except.pure]
    · simp [storedMetaOf] at hm
  · intro url
    simp [scheduler_slot, get_meta_from_request, alookup,
      get_url_from_request, metaWriteBack, Bind.bind, Except.bind, pure,
      Except.pure]

/-! ### Invalid requests -/

/-- C7: pushing a value that is neither a structured request object nor a
mapping raises `ValueError` naming the value's class, and the error carries
the queue exactly as it was before the call — rotation and Partition
Queues untouched. -/
theorem invalid_push_raises (q : RoundRobinQueue) (cls : String) (p : Int) :
    q.push (.invalid cls) p = .error (badTypeMsg cls, q) := rfl

theorem popEntry_none_state {pq pq' : PriorityAsTupleQueue}
    (h : pq.popEntry = (none, pq')) : pq' = pq := by
  unfold PriorityAsTupleQueue.popEntry at h
  rcases hmax : pq.maxActive with _ | p
  · rw [hmax] at h
    exact (congrArg Prod.snd h).symm
  · rw [hmax] at h
    dsimp only at h
    rcases hlk : alookup pq.queues p with _ | v
    · rw [hlk] at h
      exact (congrArg Prod.snd h).symm
    · rcases v with _ | ⟨r, rest⟩
      · rw [hlk] at h
        exact (congrArg Prod.snd h).symm
      · rw [hlk] at h
        simp at h

theorem popEntry_some_len {pq pq' : PriorityAsTupleQueue} {e : Prio × Req}
    (h : pq.popEntry = (some e, pq')) : pq'.len + 1 = pq.len := by
  unfold PriorityAsTupleQueue.popEntry at h
  rcases hmax : pq.maxActive with _ | p
  · rw [hmax] at h
    simp at h
  · rw [hmax] at h
    dsimp only at h
    rcases hlk : alookup pq.queues p with _ | v
    · rw [hlk] at h
      simp at h
    · rcases v with _ | ⟨r, rest⟩
      · rw [hlk] at h
        simp at h
      · rw [hlk] at h
        obtain ⟨l1, l2, hsplit, hfresh⟩ := alookup_split hlk
        have hq' : pq' = ⟨if rest.isEmpty then aerase pq.queues p
            else aupdateF pq.queues p (fun _ => rest)⟩ :=
          (congrArg Prod.snd h).symm
        by_cases hrest : rest.isEmpty
        · have hr0 : rest = [] := by simpa [List.isEmpty_iff] using hrest
          subst hr0
          rw [hq']
          simp only [List.isEmpty_nil, if_true]
          rw [show aerase pq.queues p = l1 ++ l2 from by
            rw [hsplit]; exact aerase_of_split hfresh]
          rw [show pq.len = (((l1 ++ (p, [r]) :: l2)).map
            (fun b => b.2.length)).sum from by rw [PriorityAsTupleQueue.len, hsplit]]
          simp only [PriorityAsTupleQueue.len, List.map_append, List.map_cons,
            List.sum_append, List.sum_cons, List.length_cons, List.length_nil]
          omega
        · rw [hq']
          simp only [hrest, Bool.false_eq_true, if_false]
          rw [show aupdateF pq.queues p (fun _ => rest) = l1 ++ (p, rest) :: l2 from by
            rw [hsplit]; exact aupdateF_of_split hfresh]
          rw [show pq.len = (((l1 ++ (p, r :: rest) :: l2)).map
            (fun b => b.2.length)).sum from by rw [PriorityAsTupleQueue.len, hsplit]]
          simp only [PriorityAsTupleQueue.len, List.map_append, List.map_cons,
            List.sum_append, List.sum_cons, List.length_cons]
          omega

theorem sum_len_aupdateF {l : List (String × PriorityAsTupleQueue)} {s : String}
    {pq pq' : PriorityAsTupleQueue} (hlk : alookup l s = some pq) :
    ((aupdateF l s (fun _ => pq')).map (fun e => e.2.len)).sum + pq.len =
      (l.map (fun e => e.2.len)).sum + pq'.len := by
  obtain ⟨l1, l2, hsplit, hfresh⟩ := alookup_split hlk
  rw [hsplit, aupdateF_of_split hfresh]
  simp only [List.map_append, List.map_cons, List.sum_append, List.sum_cons]
  omega

theorem sum_len_aerase {l : List (String × PriorityAsTupleQueue)} {s : String}
    {pq : PriorityAsTupleQueue} (hlk : alookup l s = some pq) :
    ((aerase l s).map (fun e => e.2.len)).sum + pq.len =
      (l.map (fun e => e.2.len)).sum := by
  obtain ⟨l1, l2, hsplit, hfresh⟩ := alookup_split hlk
  rw [hsplit, aerase_of_split hfresh]
  simp only [List.map_append, List.map_cons, List.sum_append, List.sum_cons]
  omega

/-- Unconditional size accounting for one `pop()` call. -/
theorem pop_size_cases (q : RoundRobinQueue) :
    (∀ s r q', q.popWithSlot = .ok (some (s, some r), q') → q'.size + 1 = q.size) ∧
    (∀ s q', q.popWithSlot = .ok (some (s, none), q') → q'.size = q.size) ∧
    (∀ q', q.popWithSlot = .ok (none, q') → q' = q) ∧
    (∀ e, q.popWithSlot = .error e → e.2.size = q.size) := by
  rcases hs : q._slots with _ | ⟨s0, rest⟩
  · have hcomp : q.popWithSlot = .ok (none, q) := by
      simp [RoundRobinQueue.popWithSlot, hs]
    refine ⟨?_, ?_, ?_, ?_⟩
    · intro s r q' h
      rw [hcomp] at h
      simp at h
    · intro s q' h
      rw [hcomp] at h
      simp at h
    · intro q' h
      rw [hcomp] at h
      have h2 := Except.ok.inj h
      exact (congrArg Prod.snd h2).symm
    · intro e h
      rw [hcomp] at h
      simp at h
  · rcases hlk : alookup q.pqueues s0 with _ | pq
    · have hcomp : q.popWithSlot =
          .error ("KeyError: " ++ s0, ⟨rest, q.pqueues⟩) := by
        simp [RoundRobinQueue.popWithSlot, hs, hlk]
      refine ⟨?_, ?_, ?_, ?_⟩
      · intro s r q' h
        rw [hcomp] at h
        simp at h
      · intro s q' h
        rw [hcomp] at h
        simp at h
      · intro q' h
        rw [hcomp] at h
        simp at h
      · intro e h
        rw [hcomp] at h
        have h2 := Except.error.inj h
        rw [← h2, size_eq_sum, size_eq_sum]
    · rcases hpe : pq.popEntry with ⟨x, pq'⟩
      have hpr : pq.popReq = (x.map Prod.snd, pq') := by
        simp [PriorityAsTupleQueue.popReq, hpe]
      rcases x with _ | ⟨k, r0⟩
      · have hpq2 : pq' = pq := popEntry_none_state hpe
        by_cases hpos : 0 < pq'.len
        · have hcomp : q.popWithSlot = .ok (some (s0, none),
              ⟨rest ++ [s0], aupdateF q.pqueues s0 (fun _ => pq')⟩) := by
            simp [RoundRobinQueue.popWithSlot, hs, hlk, hpr, hpos]
          refine ⟨?_, ?_, ?_, ?_⟩
          · intro s r q' h
            rw [hcomp] at h
            simp at h
          · intro s q' h
            rw [hcomp] at h
            have h2 := Except.ok.inj h
            have h3 : (⟨rest ++ [s0], aupdateF q.pqueues s0 (fun _ => pq')⟩ :
                RoundRobinQueue) = q' := congrArg Prod.snd h2
            rw [← h3, size_eq_sum, size_eq_sum]
            dsimp only
            have h4 := @sum_len_aupdateF q.pqueues s0 pq pq' hlk
            rw [hpq2] at h4 ⊢
            omega
          · intro q' h
            rw [hcomp] at h
            simp at h
          · intro e h
            rw [hcomp] at h
            simp at h
        · have hlen0 : pq'.len = 0 := by omega
          have hcomp : q.popWithSlot = .ok (some (s0, none),
              ⟨rest, aerase q.pqueues s0⟩) := by
            simp [RoundRobinQueue.popWithSlot, hs, hlk, hpr, hpos]
          refine ⟨?_, ?_, ?_, ?_⟩
          · intro s r q' h
            rw [hcomp] at h
            simp at h
          · intro s q' h
            rw [hcomp] at h
            have h2 := Except.ok.inj h
            have h3 : (⟨rest, aerase q.pqueues s0⟩ : RoundRobinQueue) = q' :=
              congrArg Prod.snd h2
            rw [← h3, size_eq_sum, size_eq_sum]
            dsimp only
            have h4 := @sum_len_aerase q.pqueues s0 pq hlk
            rw [hpq2] at hlen0
            omega
          · intro q' h
            rw [hcomp] at h
            simp at h
          · intro e h
            rw [hcomp] at h
            simp at h
      · have hlen := popEntry_some_len hpe
        by_cases hpos : 0 < pq'.len
        · have hcomp : q.popWithSlot = .ok (some (s0, some r0),
              ⟨rest ++ [s0], aupdateF q.pqueues s0 (fun _ => pq')⟩) := by
            simp [RoundRobinQueue.popWithSlot, hs, hlk, hpr, hpos]
          refine ⟨?_, ?_, ?_, ?_⟩
          · intro s r q' h
            rw [hcomp] at h
            have h2 := Except.ok.inj h
            have h3 : (⟨rest ++ [s0], aupdateF q.pqueues s0 (fun _ => pq')⟩ :
                RoundRobinQueue) = q' := congrArg Prod.snd h2
            rw [← h3, size_eq_sum, size_eq_sum]
            dsimp only
            have h4 := @sum_len_aupdateF q.pqueues s0 pq pq' hlk
            omega
          · intro s q' h
            rw [hcomp] at h
            simp at h
          · intro q' h
            rw [hcomp] at h
            simp at h
          · intro e h
            rw [hcomp] at h
            simp at h
        · have hlen0 : pq'.len = 0 := by omega
          have hcomp : q.popWithSlot = .ok (some (s0, some r0),
              ⟨rest, aerase q.pqueues s0⟩) := by
            simp [RoundRobinQueue.popWithSlot, hs, hlk, hpr, hpos]
          refine ⟨?_, ?_, ?_, ?_⟩
          · intro s r q' h
            rw [hcomp] at h
            have h2 := Except.ok.inj h
            have h3 : (⟨rest, aerase q.pqueues s0⟩ : RoundRobinQueue) = q' :=
              congrArg Prod.snd h2
            rw [← h3, size_eq_sum, size_eq_sum]
            dsimp only
            have h4 := @sum_len_aerase q.pqueues s0 pq hlk
            omega
          · intro s q' h
            rw [hcomp] at h
            simp at h
          · intro q' h
            rw [hcomp] at h
            simp at h
          · intro e h
            rw [hcomp] at h
            simp at h

/-- Unconditional size accounting for one `push` call. -/
theorem push_size_cases (q : RoundRobinQueue) (r : Req) (p : Int) :
    (∀ q', q.push r p = .ok q' → q'.size = q.size + 1) ∧
    (∀ e, q.push r p = .error e → e.2.size = q.size) := by
  constructor
  · intro q' h
    rcases hres : scheduler_slot r with msg | ⟨s, r2⟩
    · have hcomp : q.push r p = .error (msg, q) := by
        simp [RoundRobinQueue.push, hres]
      rw [hcomp] at h
      simp at h
    · obtain ⟨q'', hpush, hsz, -⟩ := push_ok hres
      rw [hpush] at h
      rw [← Except.ok.inj h]
      exact hsz
  · intro e h
    rw [push_error_state h]

theorem stepCounting_preserves (st : RoundRobinQueue × Nat × Nat) (op : Op)
    (h : st.2.2 + st.1.size = st.2.1) :
    (stepCounting st op).2.2 + (stepCounting st op).1.size =
      (stepCounting st op).2.1 := by
  rcases op with ⟨r, p⟩ | _ | _
  · rcases hp : st.1.push r p with e | q'
    · simp only [stepCounting, hp]
      rw [push_error_state hp]
      exact h
    · simp only [stepCounting, hp]
      have hsz := (push_size_cases st.1 r p).1 q' hp
      omega
  · rcases hp : st.1.popWithSlot with e | x
    · simp only [stepCounting, hp]
      have hsz := (pop_size_cases st.1).2.2.2 e hp
      omega
    · rcases x with ⟨y, q'⟩
      rcases y with _ | ⟨s, ro⟩
      · simp only [stepCounting, hp]
        have hsz := (pop_size_cases st.1).2.2.1 q' hp
        rw [hsz]
        exact h
      · rcases ro with _ | r0
        · simp only [stepCounting, hp]
          have hsz := (pop_size_cases st.1).2.1 s q' hp
          omega
        · simp only [stepCounting, hp]
          have hsz := (pop_size_cases st.1).1 s r0 q' hp
          omega
  · simp only [stepCounting]
    rfl

theorem runOps_foldl_inv (ops : List Op) (st : RoundRobinQueue × Nat × Nat)
    (h : st.2.2 + st.1.size = st.2.1) :
    (ops.foldl stepCounting st).2.2 + (ops.foldl stepCounting st).1.size =
      (ops.foldl stepCounting st).2.1 := by
  induction ops generalizing st with
  | nil => exact h
  | cons op ops ih =>
    exact ih (stepCounting st op) (stepCounting_preserves st op h)

/-- C8 counterexample: read literally over the whole session, the size
invariant breaks at `close()` — `close()` empties the queue, so after one
successful push and one `close()` the size is `0` while the number of
requests pushed so far minus the number successfully popped is `1`. -/
theorem close_resets_size_not_counts :
    (runOpsGlobal [Op.push (Req.request "http://a.example/x" []) 0, Op.close]).2.2
      + (runOpsGlobal [Op.push (Req.request "http://a.example/x" []) 0,
          Op.close]).1.size
      ≠ (runOpsGlobal [Op.push (Req.request "http://a.example/x" []) 0,
          Op.close]).2.1 := by
  decide

/-- C8 (amended): with the push/pop counters restarted at each `close()` —
`close()` discards the queue's contents, so "pushed so far" can only mean
since the queue was (re)initialised — `size()` always equals the number of
successful pushes minus the number of pops that returned a request, for any
interleaving of push, pop and close calls from the empty queue; and it
always equals the sum of the sizes of the active Partition Queues
(`0` with none). -/
theorem size_counts_pushes_minus_pops (ops : List Op) :
    (runOps ops).2.2 + (runOps ops).1.size = (runOps ops).2.1 ∧
    (runOps ops).1.size =
      (((runOps ops).1.pqueues).map (fun e => e.2.len)).sum :=
  ⟨runOps_foldl_inv ops (.empty, 0, 0) rfl, size_eq_sum (runOps ops).1⟩

theorem filter_length_le {α : Type} (p q : α → Bool)
    (himp : ∀ y, q y = true → p y = true) (l : List α) :
    (l.filter q).length ≤ (l.filter p).length := by
  induction l with
  | nil => simp
  | cons a l ih =>
    simp only [List.filter_cons]
    by_cases hq : q a = true
    · rw [if_pos hq, if_pos (himp a hq)]
      simpa using ih
    · rw [if_neg hq]
      by_cases hp : p a = true
      · rw [if_pos hp]
        simp only [List.length_cons]
        omega
      · rw [if_neg hp]
        exact ih

theorem filter_length_lt {α : Type} (p q : α → Bool)
    (himp : ∀ y, q y = true → p y = true) {x : α} {l : List α}
    (hx : x ∈ l) (hpx : p x = true) (hqx : q x = false) :
    (l.filter q).length < (l.filter p).length := by
  induction l with
  | nil => simp at hx
  | cons a l ih =>
    simp only [List.filter_cons]
    rcases List.mem_cons.mp hx with rfl | hx2
    · rw [if_neg (by simp [hqx]), if_pos hpx]
      simp only [List.length_cons]
      have := filter_length_le p q himp l
      omega
    · by_cases hq : q a = true
      · rw [if_pos hq, if_pos (himp a hq)]
        simp only [List.length_cons]
        have := ih hx2
        omega
      · rw [if_neg hq]
        by_cases hp : p a = true
        · rw [if_pos hp]
          simp only [List.length_cons]
          have := ih hx2
          omega
        · rw [if_neg hp]
          exact ih hx2

theorem uniquePathAux_spec (fs : List String) (uuids : Nat → String) :
    ∀ fuel i path,
      (fs.filter (fun c => decide (path.length ≤ c.length))).length < fuel →
      uniquePathAux fs uuids fuel i path ∉ fs ∧
      (uniquePathAux fs uuids fuel i path = path ∨
        ∃ ext, uniquePathAux fs uuids fuel i path = path ++ ext) := by
  intro fuel
  induction fuel with
  | zero => intro i path h; exact absurd h (Nat.not_lt_zero _)
  | succ fuel ih =>
    intro i path h
    by_cases hmem : path ∈ fs
    · have hstep : uniquePathAux fs uuids (fuel + 1) i path =
          uniquePathAux fs uuids fuel (i + 1) (path ++ "-" ++ uuids i) := by
        simp only [uniquePathAux]
        rw [if_pos hmem]
      have hlen : (path ++ "-" ++ uuids i).length =
          path.length + 1 + (uuids i).length := by
        rw [String.length_append, String.length_append,
          show ("-" : String).length = 1 from rfl]
      have hlt : (fs.filter (fun c =>
          decide ((path ++ "-" ++ uuids i).length ≤ c.length))).length <
          (fs.filter (fun c => decide (path.length ≤ c.length))).length := by
        refine filter_length_lt _ _ ?_ hmem ?_ ?_
        · intro y hy
          simp only [decide_eq_true_eq] at hy ⊢
          rw [hlen] at hy
          omega
        · simp only [decide_eq_true_eq]
          omega
        · simp only [decide_eq_false_iff_not]
          rw [hlen]
          omega
      rw [hstep]
      obtain ⟨h1, h2⟩ := ih (i + 1) (path ++ "-" ++ uuids i) (by omega)
      refine ⟨h1, Or.inr ?_⟩
      rcases h2 with he | ⟨ext, he⟩
      · exact ⟨"-" ++ uuids i, by rw [he, String.append_assoc]⟩
      · refine ⟨"-" ++ uuids i ++ ext, ?_⟩
        rw [he]
        simp [String.append_assoc]
    · have hstep : uniquePathAux fs uuids (fuel + 1) i path = path := by
        simp only [uniquePathAux]
        rw [if_neg hmem]
      rw [hstep]
      exact ⟨hmem, Or.inl rfl⟩

/-- C9: with the filesystem modelled as the list `fs` of existing paths and
the uuid generator as the stream `uuids`, the unique-path wrapper
constructs the queue on a path that strictly extends the base path — it is
`base ++ "-" ++ t` for the dash-joined run of drawn suffixes `t` — and
that does not exist on disk at construction time; consequently a second
queue constructed at any moment when this path is on disk never aliases
it. -/
theorem unique_path_fresh (fs : List String) (uuids : Nat → String)
    (base : String) :
    unique_files_path fs uuids base ∉ fs ∧
    (∃ t, unique_files_path fs uuids base = base ++ "-" ++ t) ∧
    (∀ fs2 uuids2 base2, unique_files_path fs uuids base ∈ fs2 →
      unique_files_path fs2 uuids2 base2 ≠ unique_files_path fs uuids base) := by
  have key : ∀ (fs' : List String) (uu : Nat → String) (b : String),
      unique_files_path fs' uu b ∉ fs' ∧
      (unique_files_path fs' uu b = b ++ "-" ++ uu 0 ∨
        ∃ ext, unique_files_path fs' uu b = (b ++ "-" ++ uu 0) ++ ext) := by
    intro fs' uu b
    refine uniquePathAux_spec fs' uu (fs'.length + 1) 1 (b ++ "-" ++ uu 0) ?_
    have := List.length_filter_le
      (fun c => decide ((b ++ "-" ++ uu 0).length ≤ c.length)) fs'
    omega
  obtain ⟨h1, h2⟩ := key fs uuids base
  refine ⟨h1, ?_, ?_⟩
  · rcases h2 with he | ⟨ext, he⟩
    · exact ⟨uuids 0, he⟩
    · exact ⟨uuids 0 ++ ext, by rw [he, String.append_assoc]⟩
  · intro fs2 uu2 b2 hmem heq
    have hfresh := (key fs2 uu2 b2).1
    rw [heq] at hfresh
    exact hfresh hmem

theorem selectSlotAux_spec (c : String → Nat) :
    ∀ l s, selectSlotAux c l = some s →
      s ∈ l ∧ (∀ t ∈ l, c s ≤ c t) ∧
      ∃ pre post, l = pre ++ s :: post ∧ ∀ t ∈ pre, c s < c t := by
  intro l
  induction l with
  | nil => intro s h; simp [selectSlotAux] at h
  | cons a l ih =>
    intro s h
    rw [selectSlotAux] at h
    rcases hrec : selectSlotAux c l with _ | t
    · rw [hrec] at h
      have ha : a = s := by simpa using h
      subst ha
      have hl : l = [] := by
        cases l with
        | nil => rfl
        | cons b m =>
          rw [selectSlotAux] at hrec
          rcases h2 : selectSlotAux c m with _ | u
          · rw [h2] at hrec
            simp at hrec
          · rw [h2] at hrec
            dsimp only at hrec
            by_cases hlt : c u < c b
            · rw [if_pos hlt] at hrec
              simp at hrec
            · rw [if_neg hlt] at hrec
              simp at hrec
      subst hl
      exact ⟨by simp, by simp, [], [], rfl, by simp⟩
    · rw [hrec] at h
      dsimp only at h
      obtain ⟨htm, htmin, pre, post, hsplit, hpre⟩ := ih t hrec
      by_cases hlt : c t < c a
      · rw [if_pos hlt] at h
        have ht : t = s := by simpa using h
        subst ht
        refine ⟨List.mem_cons_of_mem a htm, ?_, a :: pre, post,
          by rw [hsplit, List.cons_append], ?_⟩
        · intro u hu
          rcases List.mem_cons.mp hu with rfl | hu2
          · omega
          · exact htmin u hu2
        · intro u hu
          rcases List.mem_cons.mp hu with rfl | hu2
          · exact hlt
          · exact hpre u hu2
      · rw [if_neg hlt] at h
        have ha : a = s := by simpa using h
        subst ha
        refine ⟨List.mem_cons_self a l, ?_, [], l, rfl, by simp⟩
        intro u hu
        rcases List.mem_cons.mp hu with rfl | hu2
        · exact Nat.le_refl _
        · have := htmin u hu2
          omega

/-- C10: in the downloader-aware variant (modelled from the spec — the
class the tests configure is not under src/), with `counts` the in-flight
signal over slot keys (zero for slots never signalled), a pop that yields
a slot yields the slot `selectSlotAux` chose, and that choice is an active
slot whose in-flight count is minimal among all active slots, with every
slot earlier in the rotation carrying a strictly larger count (ties go to
the earliest active slot); with no active slot the pop returns empty, and
push and close are the very functions of the round-robin variant. -/
theorem downloader_aware_min_slot (counts : String → Nat)
    (q : RoundRobinQueue) :
    (q._slots = [] → q.dapop counts = .ok (none, q)) ∧
    (∀ s r q', q.dapop counts = .ok (some (s, r), q') →
      selectSlotAux counts q._slots = some s) ∧
    (∀ s, selectSlotAux counts q._slots = some s →
      s ∈ q._slots ∧
      (∀ t ∈ q._slots, counts s ≤ counts t) ∧
      ∃ pre post, q._slots = pre ++ s :: post ∧
        ∀ t ∈ pre, counts s < counts t) ∧
    RoundRobinQueue.dapush = RoundRobinQueue.push ∧
    RoundRobinQueue.daclose = RoundRobinQueue.closeSnap := by
  refine ⟨?_, ?_, ?_, rfl, rfl⟩
  · intro hnil
    rw [RoundRobinQueue.dapop, hnil]
    rfl
  · intro s r q' h
    rw [RoundRobinQueue.dapop] at h
    rcases hsel : selectSlotAux counts q._slots with _ | t
    · rw [hsel] at h
      simp at h
    · rw [hsel] at h
      dsimp only at h
      rcases hlk : alookup q.pqueues t with _ | pq
      · rw [hlk] at h
        simp at h
      · rw [hlk] at h
        dsimp only at h
        by_cases hpos : 0 < pq.popReq.2.len
        · rw [if_pos hpos] at h
          have := Except.ok.inj h
          have hts : t = s := congrArg (fun z => (z.1.getD ("", none)).1) this
          rw [hts]
        · rw [if_neg hpos] at h
          have := Except.ok.inj h
          have hts : t = s := congrArg (fun z => (z.1.getD ("", none)).1) this
          rw [hts]
  · intro s h
    exact selectSlotAux_spec counts q._slots s h

theorem single_slot_pops_witness :
    (∀ pr ∈ [(Req.request "u1" [("download_slot", "a")], (1 : Int)),
        (Req.request "u2" [("download_slot", "a")], 2)],
      slotKeyOf pr.1 = some "a") ∧
    (([(Req.request "u1" [("download_slot", "a")], (1 : Int)),
        (Req.request "u2" [("download_slot", "a")], 2)].map Prod.snd).Nodup) ∧
    (∃ po : List (Req × Int),
      List.Perm po (storedPairs
        [(Req.request "u1" [("download_slot", "a")], (1 : Int)),
         (Req.request "u2" [("download_slot", "a")], 2)]) ∧
      (po.map Prod.snd).Pairwise (fun a b => b < a) ∧
      (RoundRobinQueue.pushRun .empty
        [(Req.request "u1" [("download_slot", "a")], (1 : Int)),
         (Req.request "u2" [("download_slot", "a")], 2)]).drainedReqs =
        po.map Prod.fst) :=
  ⟨by decide, by decide,
   single_slot_pops_strictly_decreasing
     [(Req.request "u1" [("download_slot", "a")], (1 : Int)),
      (Req.request "u2" [("download_slot", "a")], 2)] "a"
     (by decide) (by decide)⟩

theorem round_robin_rotation_witness :
    InvCore (RoundRobinQueue.pushRun .empty
      [(Req.request "u1" [("download_slot", "a")], 1),
       (Req.request "u2" [("download_slot", "b")], 2)]) ∧
    ((RoundRobinQueue.drain (RoundRobinQueue.pushRun .empty
        [(Req.request "u1" [("download_slot", "a")], 1),
         (Req.request "u2" [("download_slot", "b")], 2)])._slots.length
      (RoundRobinQueue.pushRun .empty
        [(Req.request "u1" [("download_slot", "a")], 1),
         (Req.request "u2" [("download_slot", "b")], 2)])).map Prod.fst =
      (RoundRobinQueue.pushRun .empty
        [(Req.request "u1" [("download_slot", "a")], 1),
         (Req.request "u2" [("download_slot", "b")], 2)])._slots ∧
      (RoundRobinQueue.pushRun .empty
        [(Req.request "u1" [("download_slot", "a")], 1),
         (Req.request "u2" [("download_slot", "b")], 2)])._slots.Nodup) :=
  ⟨by decide,
   round_robin_rotation (RoundRobinQueue.pushRun .empty
     [(Req.request "u1" [("download_slot", "a")], 1),
      (Req.request "u2" [("download_slot", "b")], 2)]) (by decide)⟩

theorem rotation_iff_nonempty_witness :
    Reach (RoundRobinQueue.pushRun .empty
      [(Req.request "u1" [("download_slot", "a")], 1)]) ∧
    ((∀ s, s ∈ (RoundRobinQueue.pushRun .empty
      [(Req.request "u1" [("download_slot", "a")], 1)])._slots ↔
        ∃ pq, alookup (RoundRobinQueue.pushRun .empty
      [(Req.request "u1" [("download_slot", "a")], 1)]).pqueues s = some pq ∧ 0 < pq.len) ∧
      (∀ s rest, (RoundRobinQueue.pushRun .empty
      [(Req.request "u1" [("download_slot", "a")], 1)])._slots = s :: rest →
        ∀ pq, alookup (RoundRobinQueue.pushRun .empty
      [(Req.request "u1" [("download_slot", "a")], 1)]).pqueues s = some pq →
        (pq.popReq.2.len = 0 →
          ∃ q', (RoundRobinQueue.pushRun .empty
      [(Req.request "u1" [("download_slot", "a")], 1)]).popWithSlot = .ok (some (s, pq.popReq.1), q') ∧
            s ∉ q'._slots ∧ alookup q'.pqueues s = none) ∧
        (0 < pq.popReq.2.len →
          ∃ q', (RoundRobinQueue.pushRun .empty
      [(Req.request "u1" [("download_slot", "a")], 1)]).popWithSlot = .ok (some (s, pq.popReq.1), q') ∧
            q'._slots = rest ++ [s] ∧
            alookup q'.pqueues s = some pq.popReq.2)) ∧
      (∀ r p s q', slotKeyOf r = some s → (RoundRobinQueue.pushRun .empty
      [(Req.request "u1" [("download_slot", "a")], 1)]).push r p = .ok q' →
        ((alookup (RoundRobinQueue.pushRun .empty
      [(Req.request "u1" [("download_slot", "a")], 1)]).pqueues s).isSome = true → q'._slots = (RoundRobinQueue.pushRun .empty
      [(Req.request "u1" [("download_slot", "a")], 1)])._slots) ∧
        (alookup (RoundRobinQueue.pushRun .empty
      [(Req.request "u1" [("download_slot", "a")], 1)]).pqueues s = none →
          q'._slots = (RoundRobinQueue.pushRun .empty
      [(Req.request "u1" [("download_slot", "a")], 1)])._slots ++ [s]))) :=
  ⟨pushRun_reach Reach.start _,
   rotation_iff_nonempty (RoundRobinQueue.pushRun .empty
      [(Req.request "u1" [("download_slot", "a")], 1)]) (pushRun_reach Reach.start _)⟩

end Scrapy
